import Mathlib

/-!
# Verification of the Graph_PathFinder search algorithms

Shallow embedding of `src/algorithms.py` (the PathSearch core): the
Python dictionaries become association lists (new bindings consed at the
front, lookup returns the most recent binding, exactly like dict
assignment/lookup), the BFS deque and DFS stack become lists with an
explicit push discipline, and the A* binary heap becomes a multiset of
`(f, node)` entries popped at the lexicographic minimum — Python's
`heapq` pops a minimum of the tuple order `(float, node)`, so the popped
*value* is always the lexicographic minimum of the current entries.

Python's floats are modelled by an arbitrary linearly ordered type `β`
carrying `0`, `1` and `+` (the only float operations the A* loop
performs are `0.0`, `g + 1.0`, `tg + h` and `<`); `math.sqrt` cannot be
computed exactly, so the Euclidean helper is modelled over `ℝ` and the
search loops are parametric in the heuristic function.

Loops are modelled with explicit fuel; `none` results signal either fuel
exhaustion or a run in which the Python code raises (`KeyError`) — the
distinction is kept explicit in `reconstruct_path`'s result type.
-/

set_option linter.unusedVariables false
set_option linter.unusedSectionVars false

namespace PathFinder

/-- Lookup in a Python-dict model: an association list where the newest
binding for a key is the leftmost one. `dictFind d k` is `d[k]` when the
key is present (`d.get(k)` otherwise yields `none`). -/
def dictFind {α β : Type} [DecidableEq α] (d : List (α × β)) (k : α) : Option β :=
  match d with
  | [] => none
  | (a, b) :: t => if a = k then some b else dictFind t k

/-- `k in d` for the dict model. -/
def dictMem {α β : Type} [DecidableEq α] (d : List (α × β)) (k : α) : Bool :=
  (dictFind d k).isSome

/-- `adjacency.get(current, [])` from the source. -/
def adjGet {α : Type} [DecidableEq α] (adj : List (α × List α)) (k : α) : List α :=
  (dictFind adj k).getD []

/-- `v` is listed among `u`'s successors in the adjacency mapping. -/
def Edge {α : Type} [DecidableEq α] (adj : List (α × List α)) (u v : α) : Prop :=
  v ∈ adjGet adj u

/-- `p` is a path of the adjacency relation from `s` to `g` (a non-empty
node sequence starting at `s`, ending at `g`, each consecutive pair an
edge).  Its edge count is `p.length - 1`. -/
def IsPathFrom {α : Type} [DecidableEq α] (adj : List (α × List α)) (s g : α)
    (p : List α) : Prop :=
  p.head? = some s ∧ p.getLast? = some g ∧ List.Chain' (Edge adj) p

instance {α : Type} [DecidableEq α] (adj : List (α × List α)) (u v : α) :
    Decidable (Edge adj u v) :=
  inferInstanceAs (Decidable (v ∈ adjGet adj u))

instance {α : Type} [DecidableEq α] (adj : List (α × List α)) (s g : α)
    (p : List α) : Decidable (IsPathFrom adj s g p) :=
  inferInstanceAs (Decidable
    (p.head? = some s ∧ p.getLast? = some g ∧ List.Chain' (Edge adj) p))

/-- Outcome of the backward walk in `reconstruct_path`: a produced list,
a `KeyError` (`came_from[current]` with `current` absent), or divergence
of the Python `while` loop (the came-from map cycles). -/
inductive WalkRes (α : Type) where
  | ok (p : List α)
  | keyErr
  | cyc
deriving DecidableEq

/-- The body of `reconstruct_path`'s `while current is not None` loop:
append `current`, then look its predecessor up (a missing key raises).
Fuel `|cf| + 1` is enough to reach any `None` terminator, since a longer
walk must repeat a key and hence loop forever. -/
def walkLoop {α : Type} [DecidableEq α] (cf : List (α × Option α)) :
    ℕ → α → List α → WalkRes α
  | 0, _, _ => .cyc
  | fuel + 1, cur, acc =>
    match dictFind cf cur with
    | none => .keyErr
    | some none => .ok (acc ++ [cur])
    | some (some p) => walkLoop cf fuel p (acc ++ [cur])

/-- `reconstruct_path(came_from, start, goal)` from the source: walk
backward from `goal`, reverse, and return `[]` unless the result starts
at `start`. -/
def reconstruct_path {α : Type} [DecidableEq α] (cf : List (α × Option α))
    (start goal : α) : WalkRes α :=
  match walkLoop cf (cf.length + 1) goal [] with
  | .ok l =>
    let path := l.reverse
    if path = [] ∨ path.head? ≠ some start then .ok [] else .ok path
  | .keyErr => .keyErr
  | .cyc => .cyc

/-- The `SearchResult` dataclass.  The source stores
`distance = max(0, len(path) - 1)`, which is truncated subtraction on
naturals. -/
structure SearchResult (α : Type) where
  path : List α
  distance : ℕ
  visited_count : ℕ
  visited_order : List α
deriving DecidableEq

/-- The `for neighbor in adjacency.get(current, [])` body shared by BFS
and DFS: undiscovered neighbors are recorded in the came-from map and
handed to the frontier via `push` (BFS appends right, DFS pushes on
top). -/
def expandNbrs {α : Type} [DecidableEq α] (cur : α) (push : List α → α → List α) :
    List α → List (α × Option α) → List α → List (α × Option α) × List α
  | [], cf, fr => (cf, fr)
  | n :: ns, cf, fr =>
    if dictMem cf n then expandNbrs cur push ns cf fr
    else expandNbrs cur push ns ((n, some cur) :: cf) (push fr n)

/-- The shared BFS/DFS `while frontier` loop.  State: came-from map,
frontier, `visited_count`, `visited_order`.  Returns the final state;
`none` means the fuel ran out (never happens for the fuel chosen in
`bfs`/`dfs`, see `searchLoop_runs`). -/
def searchLoop {α : Type} [DecidableEq α] (adj : List (α × List α)) (goal : α)
    (push : List α → α → List α) :
    ℕ → List (α × Option α) → List α → ℕ → List α →
    Option (List (α × Option α) × ℕ × List α)
  | 0, _, _, _, _ => none
  | fuel + 1, cf, fr, cnt, ord =>
    match fr with
    | [] => some (cf, cnt, ord)
    | cur :: rest =>
      if cur = goal then some (cf, cnt + 1, ord ++ [cur])
      else
        let s := expandNbrs cur push (adjGet adj cur) cf rest
        searchLoop adj goal push fuel s.1 s.2 (cnt + 1) (ord ++ [cur])

/-- All nodes mentioned by the adjacency mapping (keys and listed
neighbors); frontier insertions only ever draw from this set, which
bounds the number of loop iterations. -/
def univFS {α : Type} [DecidableEq α] (adj : List (α × List α)) : Finset α :=
  (adj.map Prod.fst).toFinset ∪ (adj.map Prod.snd).flatten.toFinset

/-- Fuel that provably outlasts the BFS/DFS loop. -/
def searchFuel {α : Type} [DecidableEq α] (adj : List (α × List α)) : ℕ :=
  (univFS adj).card + 2

/-- Packaging the final loop state exactly as the source does:
`path = reconstruct_path(...)`, `distance = max(0, len(path) - 1)`.  A
`KeyError` or divergence inside `reconstruct_path` aborts the call
(`none`). -/
def finish {α : Type} [DecidableEq α] (start goal : α)
    (out : List (α × Option α) × ℕ × List α) : Option (SearchResult α) :=
  match reconstruct_path out.1 start goal with
  | .ok p => some ⟨p, p.length - 1, out.2.1, out.2.2⟩
  | _ => none

/-- `bfs(adjacency, start, goal)` from the source: FIFO frontier seeded
with `start`, `came_from = {start: None}`. -/
def bfs {α : Type} [DecidableEq α] (adj : List (α × List α)) (start goal : α) :
    Option (SearchResult α) :=
  (searchLoop adj goal (fun fr n => fr ++ [n]) (searchFuel adj)
      [(start, none)] [start] 0 []).bind (finish start goal)

/-- `dfs(adjacency, start, goal)` from the source: LIFO frontier (the
Python list pushes and pops at the same end). -/
def dfs {α : Type} [DecidableEq α] (adj : List (α × List α)) (start goal : α) :
    Option (SearchResult α) :=
  (searchLoop adj goal (fun fr n => n :: fr) (searchFuel adj)
      [(start, none)] [start] 0 []).bind (finish start goal)

/-- `euclidean(a, b)` from the source, with floats modelled as reals. -/
noncomputable def euclidean (a b : ℝ × ℝ) : ℝ :=
  Real.sqrt ((a.1 - b.1) ^ 2 + (a.2 - b.2) ^ 2)

section AStar

variable {α : Type} [LinearOrder α] {β : Type} [Zero β] [One β] [Add β]
  [LinearOrder β] {P : Type}

/-- Strict order on heap entries: Python compares `(f, node)` tuples
componentwise. -/
def entryLt (x y : β × α) : Prop := x.1 < y.1 ∨ (x.1 = y.1 ∧ x.2 < y.2)

instance (x y : β × α) : Decidable (entryLt x y) := by
  unfold entryLt; infer_instance

/-- Minimum entry of a non-empty heap (accumulator form). -/
def minEntry : β × α → List (β × α) → β × α
  | e, [] => e
  | e, x :: t => minEntry (if entryLt x e then x else e) t

/-- Remove the first occurrence of a value. -/
def eraseFirst (m : β × α) : List (β × α) → List (β × α)
  | [] => []
  | x :: t => if x = m then t else x :: eraseFirst m t

/-- `heappop`: the popped value is the lexicographic minimum of the
current entries; the heap keeps the rest. -/
def popMin (l : List (β × α)) : Option ((β × α) × List (β × α)) :=
  match l with
  | [] => none
  | x :: t =>
    let m := minEntry x t
    some (m, eraseFirst m (x :: t))

/-- The heuristic term pushed by `astar`:
`euclidean(positions[neighbor], positions[goal]) if (neighbor in positions and goal in positions) else 0.0`. -/
def heurTerm (pos : List (α × P)) (euclid : P → P → β) (n g : α) : β :=
  match dictFind pos n, dictFind pos g with
  | some a, some b => euclid a b
  | _, _ => 0

/-- The `for neighbor in adjacency.get(current, [])` body of `astar`:
`tentative_g = g_score[current] + 1.0` (a `KeyError` — which never
fires — is modelled as `none`), relaxation on strict improvement, and a
heap push of `(tentative_g + h, neighbor)`. -/
def astarExpand (pos : List (α × P)) (euclid : P → P → β) (goal cur : α) :
    List α → List (α × Option α) → List (α × β) → List (β × α) →
    Option (List (α × Option α) × List (α × β) × List (β × α))
  | [], cf, gs, hp => some (cf, gs, hp)
  | n :: ns, cf, gs, hp =>
    match dictFind gs cur with
    | none => none
    | some gc =>
      let tg := gc + 1
      let improved :=
        match dictFind gs n with
        | none => true
        | some gn => decide (tg < gn)
      if improved then
        astarExpand pos euclid goal cur ns ((n, some cur) :: cf) ((n, tg) :: gs)
          (hp ++ [(tg + heurTerm pos euclid n goal, n)])
      else astarExpand pos euclid goal cur ns cf gs hp

/-- The `while open_heap` loop of `astar`. -/
def astarLoop (adj : List (α × List α)) (pos : List (α × P))
    (euclid : P → P → β) (start goal : α) :
    ℕ → List (β × α) → List (α × Option α) → List (α × β) → ℕ → List α →
    Option (SearchResult α)
  | 0, _, _, _, _, _ => none
  | fuel + 1, hp, cf, gs, cnt, ord =>
    match popMin hp with
    | none => some ⟨[], 0, cnt, ord⟩
    | some ((_, cur), rest) =>
      if cur = goal then
        match reconstruct_path cf start goal with
        | .ok p => some ⟨p, p.length - 1, cnt + 1, ord ++ [cur]⟩
        | _ => none
      else
        match astarExpand pos euclid goal cur (adjGet adj cur) cf gs rest with
        | none => none
        | some (cf', gs', hp') =>
          astarLoop adj pos euclid start goal fuel hp' cf' gs' (cnt + 1)
            (ord ++ [cur])

/-- Fuel for the A* loop (generous; every claim about `astar` is either
conditional on a produced result or exercises finitely many steps). -/
def astarFuel (adj : List (α × List α)) : ℕ :=
  ((univFS adj).card + 2) * ((univFS adj).card + 2) + 1

/-- `astar(adjacency, positions, start, goal)` from the source,
parametric in the straight-line metric `euclid` (floats are not exactly
representable; instantiating `euclid := euclidean` over `ℝ` recovers the
source's heuristic). -/
def astar (adj : List (α × List α)) (pos : List (α × P))
    (euclid : P → P → β) (start goal : α) : Option (SearchResult α) :=
  astarLoop adj pos euclid start goal (astarFuel adj)
    [(0, start)] [(start, none)] [(start, 0)] 0 []

end AStar

section UCS

variable {α : Type} [LinearOrder α]

/-- Modelled from the spec: "degrades to uniform-cost behavior" (§4.1).
Uniform-cost search is the same best-first loop with the frontier
prioritised by the accumulated cost `g` alone — no heuristic term.  The
repository has no such function; this is the spec-side reference point
for the degradation claim.  The cost type `C` is explicit so callers
can pin it. -/
def ucsExpand (C : Type) [Zero C] [One C] [Add C] [LinearOrder C]
    (goal cur : α) :
    List α → List (α × Option α) → List (α × C) → List (C × α) →
    Option (List (α × Option α) × List (α × C) × List (C × α))
  | [], cf, gs, hp => some (cf, gs, hp)
  | n :: ns, cf, gs, hp =>
    match dictFind gs cur with
    | none => none
    | some gc =>
      let tg := gc + 1
      let improved :=
        match dictFind gs n with
        | none => true
        | some gn => decide (tg < gn)
      if improved then
        ucsExpand C goal cur ns ((n, some cur) :: cf) ((n, tg) :: gs)
          (hp ++ [(tg, n)])
      else ucsExpand C goal cur ns cf gs hp

/-- Modelled from the spec: the uniform-cost search loop (priority =
`g`). -/
def ucsLoop (C : Type) [Zero C] [One C] [Add C] [LinearOrder C]
    (adj : List (α × List α)) (start goal : α) :
    ℕ → List (C × α) → List (α × Option α) → List (α × C) → ℕ → List α →
    Option (SearchResult α)
  | 0, _, _, _, _, _ => none
  | fuel + 1, hp, cf, gs, cnt, ord =>
    match popMin hp with
    | none => some ⟨[], 0, cnt, ord⟩
    | some ((_, cur), rest) =>
      if cur = goal then
        match reconstruct_path cf start goal with
        | .ok p => some ⟨p, p.length - 1, cnt + 1, ord ++ [cur]⟩
        | _ => none
      else
        match ucsExpand C goal cur (adjGet adj cur) cf gs rest with
        | none => none
        | some (cf', gs', hp') =>
          ucsLoop C adj start goal fuel hp' cf' gs' (cnt + 1) (ord ++ [cur])

/-- Modelled from the spec: uniform-cost search entry point. -/
def ucs (C : Type) [Zero C] [One C] [Add C] [LinearOrder C]
    (adj : List (α × List α)) (start goal : α) : Option (SearchResult α) :=
  ucsLoop C adj start goal (astarFuel adj)
    [(0, start)] [(start, none)] [(start, 0)] 0 []

end UCS

/-! ## Concrete instances used by the claim theorems -/

/-- The two-isolated-nodes graph `{0: [], 1: []}`: node `1` is a valid
key but unreachable from `0`. -/
def adjIso : List (ℕ × List ℕ) := [(0, []), (1, [])]

/-- The graph on which A* pops a node twice: `0` is the start, `5` the
goal; the short route `0 → 3 → 4` is delayed by node `3`'s heuristic
while `4` is first reached through the longer route `0 → 1 → 2 → 4`,
then improved and re-popped. -/
def adjRevisit : List (ℕ × List ℕ) :=
  [(0, [1, 3]), (1, [2]), (2, [4]), (3, [4]), (4, [5]), (5, [])]

/-- Positions for `adjRevisit`: only node `3` (at `(3, 0)`) and the goal
`5` (at `(0, 0)`) carry positions; every other heuristic term degrades
to `0`, as in the source.  Coordinates are integral, so each Euclidean
distance that the run evaluates is the exact integer `|Δx|`
(`sqrt(Δx² + 0²) = |Δx|`, computed exactly by IEEE doubles at these
magnitudes). -/
def posRevisit : List (ℕ × (ℤ × ℤ)) := [(3, (3, 0)), (5, (0, 0))]

/-- Straight-line distance for points sharing their second coordinate:
on such pairs it coincides with `euclidean`.  All positioned nodes of
`posRevisit` lie on the axis `y = 0`. -/
def lineDist (a b : ℤ × ℤ) : ℤ := |a.1 - b.1|

/-! ## Loop invariants shared by several claims -/

/-- The BFS/DFS loop increments `visited_count` exactly when it appends
to `visited_order`, so the final state keeps them aligned. -/
theorem searchLoop_count {α : Type} [DecidableEq α] (adj : List (α × List α))
    (goal : α) (push : List α → α → List α) :
    ∀ (fuel : ℕ) (cf : List (α × Option α)) (fr : List α) (cnt : ℕ)
      (ord : List α) (out : List (α × Option α) × ℕ × List α),
      searchLoop adj goal push fuel cf fr cnt ord = some out →
      cnt = ord.length → out.2.1 = out.2.2.length := by
  intro fuel
  induction fuel with
  | zero => intro cf fr cnt ord out h hc; simp [searchLoop] at h
  | succ fuel ih =>
    intro cf fr cnt ord out h hc
    match fr with
    | [] =>
      simp only [searchLoop] at h
      obtain rfl := Option.some_injective _ h
      exact hc
    | cur :: rest =>
      simp only [searchLoop] at h
      by_cases hg : cur = goal
      · rw [if_pos hg] at h
        obtain rfl := Option.some_injective _ h
        simp [hc]
      · rw [if_neg hg] at h
        exact ih _ _ _ _ _ h (by simp [hc])

/-- Same bookkeeping for the A* loop (both `return` sites and the
empty-heap exit). -/
theorem astarLoop_count {α : Type} [LinearOrder α] {β : Type} [Zero β] [One β]
    [Add β] [LinearOrder β] {P : Type} (adj : List (α × List α))
    (pos : List (α × P)) (euclid : P → P → β) (start goal : α) :
    ∀ (fuel : ℕ) (hp : List (β × α)) (cf : List (α × Option α))
      (gs : List (α × β)) (cnt : ℕ) (ord : List α) (r : SearchResult α),
      astarLoop adj pos euclid start goal fuel hp cf gs cnt ord = some r →
      cnt = ord.length → r.visited_count = r.visited_order.length := by
  intro fuel
  induction fuel with
  | zero => intro hp cf gs cnt ord r h hc; simp [astarLoop] at h
  | succ fuel ih =>
    intro hp cf gs cnt ord r h hc
    simp only [astarLoop] at h
    match hpop : popMin hp with
    | none =>
      rw [hpop] at h
      dsimp only at h
      obtain rfl := Option.some_injective _ h
      exact hc
    | some ((f, cur), rest) =>
      rw [hpop] at h
      dsimp only at h
      by_cases hg : cur = goal
      · rw [if_pos hg] at h
        match hrec : reconstruct_path cf start goal with
        | .ok p =>
          rw [hrec] at h
          obtain rfl := Option.some_injective _ h
          simp [hc]
        | .keyErr => rw [hrec] at h; exact absurd h (by simp)
        | .cyc => rw [hrec] at h; exact absurd h (by simp)
      · rw [if_neg hg] at h
        match hexp : astarExpand pos euclid goal cur (adjGet adj cur) cf gs rest with
        | none => rw [hexp] at h; exact absurd h (by simp)
        | some (cf', gs', hp') =>
          rw [hexp] at h
          exact ih _ _ _ _ _ _ h (by simp [hc])

/-- Every parent recorded in the came-from map is connected to its
child by an edge of the adjacency mapping. -/
def CFok {α : Type} [DecidableEq α] (adj : List (α × List α))
    (cf : List (α × Option α)) : Prop :=
  ∀ n p, dictFind cf n = some (some p) → Edge adj p n

theorem dictFind_cons {α β : Type} [DecidableEq α] (a : α) (b : β)
    (d : List (α × β)) (k : α) :
    dictFind ((a, b) :: d) k = if a = k then some b else dictFind d k := rfl

theorem CFok_init {α : Type} [DecidableEq α] (adj : List (α × List α))
    (s : α) : CFok adj [(s, none)] := by
  intro n p h
  rw [dictFind_cons] at h
  by_cases hs : s = n
  · rw [if_pos hs] at h; exact absurd h (by simp)
  · rw [if_neg hs] at h; exact absurd h (by simp [dictFind])

theorem CFok_push {α : Type} [DecidableEq α] {adj : List (α × List α)}
    {cf : List (α × Option α)} {cur n : α} (hok : CFok adj cf)
    (he : Edge adj cur n) : CFok adj ((n, some cur) :: cf) := by
  intro m p h
  rw [dictFind_cons] at h
  by_cases hm : n = m
  · rw [if_pos hm] at h
    obtain rfl : cur = p := by simpa using h
    exact hm ▸ he
  · rw [if_neg hm] at h
    exact hok m p h

/-- `expandNbrs` only adds parent links along edges out of `cur`. -/
theorem expandNbrs_CFok {α : Type} [DecidableEq α] (adj : List (α × List α))
    (cur : α) (push : List α → α → List α) :
    ∀ (ns : List α) (cf : List (α × Option α)) (fr : List α),
      (∀ n ∈ ns, Edge adj cur n) → CFok adj cf →
      CFok adj (expandNbrs cur push ns cf fr).1 := by
  intro ns
  induction ns with
  | nil => intro cf fr hns hok; exact hok
  | cons n ns ih =>
    intro cf fr hns hok
    simp only [expandNbrs]
    by_cases hmem : dictMem cf n
    · rw [if_pos hmem]
      exact ih _ _ (fun m hm => hns m (List.mem_cons_of_mem _ hm)) hok
    · rw [if_neg hmem]
      exact ih _ _ (fun m hm => hns m (List.mem_cons_of_mem _ hm))
        (CFok_push hok (hns n (List.mem_cons_self n ns)))

/-- The BFS/DFS loop preserves the came-from edge invariant. -/
theorem searchLoop_CFok {α : Type} [DecidableEq α] (adj : List (α × List α))
    (goal : α) (push : List α → α → List α) :
    ∀ (fuel : ℕ) (cf : List (α × Option α)) (fr : List α) (cnt : ℕ)
      (ord : List α) (out : List (α × Option α) × ℕ × List α),
      searchLoop adj goal push fuel cf fr cnt ord = some out →
      CFok adj cf → CFok adj out.1 := by
  intro fuel
  induction fuel with
  | zero => intro cf fr cnt ord out h hok; simp [searchLoop] at h
  | succ fuel ih =>
    intro cf fr cnt ord out h hok
    match fr with
    | [] =>
      simp only [searchLoop] at h
      obtain rfl := Option.some_injective _ h
      exact hok
    | cur :: rest =>
      simp only [searchLoop] at h
      by_cases hg : cur = goal
      · rw [if_pos hg] at h
        obtain rfl := Option.some_injective _ h
        exact hok
      · rw [if_neg hg] at h
        exact ih _ _ _ _ _ h
          (expandNbrs_CFok adj cur push _ cf rest (fun n hn => hn) hok)

/-- The A* relaxation step likewise only records parent links along
edges out of `cur`. -/
theorem astarExpand_CFok {α : Type} [LinearOrder α] {β : Type} [Zero β]
    [One β] [Add β] [LinearOrder β] {P : Type} (adj : List (α × List α))
    (pos : List (α × P)) (euclid : P → P → β) (goal cur : α) :
    ∀ (ns : List α) (cf : List (α × Option α)) (gs : List (α × β))
      (hp : List (β × α)) (cf' : List (α × Option α)) (gs' : List (α × β))
      (hp' : List (β × α)),
      astarExpand pos euclid goal cur ns cf gs hp = some (cf', gs', hp') →
      (∀ n ∈ ns, Edge adj cur n) → CFok adj cf → CFok adj cf' := by
  intro ns
  induction ns with
  | nil =>
    intro cf gs hp cf' gs' hp' h hns hok
    simp only [astarExpand] at h
    obtain ⟨rfl, rfl, rfl⟩ : cf = cf' ∧ gs = gs' ∧ hp = hp' := by
      simpa using h
    exact hok
  | cons n ns ih =>
    intro cf gs hp cf' gs' hp' h hns hok
    simp only [astarExpand] at h
    match hgc : dictFind gs cur with
    | none => rw [hgc] at h; exact absurd h (by simp)
    | some gc =>
      rw [hgc] at h
      dsimp only at h
      by_cases himp : (match dictFind gs n with
          | none => true
          | some gn => decide (gc + 1 < gn)) = true
      · rw [if_pos himp] at h
        exact ih _ _ _ _ _ _ h (fun m hm => hns m (List.mem_cons_of_mem _ hm))
          (CFok_push hok (hns n (List.mem_cons_self n ns)))
      · rw [if_neg himp] at h
        exact ih _ _ _ _ _ _ h (fun m hm => hns m (List.mem_cons_of_mem _ hm)) hok

/-- A successful backward walk returns the accumulator extended by a
chain that starts at the walk's origin, follows came-from links, and
ends at a node bound to `None`. -/
theorem walkLoop_ok {α : Type} [DecidableEq α] (cf : List (α × Option α)) :
    ∀ (fuel : ℕ) (cur : α) (acc l : List α),
      walkLoop cf fuel cur acc = .ok l →
      ∃ ch, l = acc ++ ch ∧ ch.head? = some cur ∧
        List.Chain' (fun x y => dictFind cf x = some (some y)) ch ∧
        ∃ m, ch.getLast? = some m ∧ dictFind cf m = some none := by
  intro fuel
  induction fuel with
  | zero => intro cur acc l h; exact absurd h (by simp [walkLoop])
  | succ fuel ih =>
    intro cur acc l h
    simp only [walkLoop] at h
    match hf : dictFind cf cur with
    | none => rw [hf] at h; exact absurd h (by simp)
    | some none =>
      rw [hf] at h
      obtain rfl : acc ++ [cur] = l := by simpa using h
      exact ⟨[cur], rfl, rfl, List.chain'_singleton cur, cur, rfl, hf⟩
    | some (some p) =>
      rw [hf] at h
      obtain ⟨ch, hl, hh, hc, m, hlast, hm⟩ := ih p (acc ++ [cur]) l h
      have hne : ch ≠ [] := by
        intro hemp; rw [hemp] at hh; exact absurd hh (by simp)
      refine ⟨cur :: ch, by simpa using hl, rfl, ?_, m, ?_, hm⟩
      · rw [List.chain'_cons']
        refine ⟨fun y hy => ?_, hc⟩
        rw [hh, Option.mem_some_iff] at hy
        subst hy
        exact hf
      · match ch, hne with
        | c :: ch', _ => rw [List.getLast?_cons_cons]; exact hlast

/-- `reconstruct_path`, when it returns a non-empty list, returns a
sequence that starts at `start`, ends at `goal`, and whose consecutive
pairs are came-from links read backward. -/
theorem reconstruct_path_ok {α : Type} [DecidableEq α]
    (cf : List (α × Option α)) (start goal : α) (p : List α)
    (h : reconstruct_path cf start goal = .ok p) (hne : p ≠ []) :
    p.head? = some start ∧ p.getLast? = some goal ∧
      List.Chain' (fun u v => dictFind cf v = some (some u)) p := by
  unfold reconstruct_path at h
  match hw : walkLoop cf (cf.length + 1) goal [] with
  | .keyErr => rw [hw] at h; exact absurd h (by simp)
  | .cyc => rw [hw] at h; exact absurd h (by simp)
  | .ok l =>
    rw [hw] at h
    dsimp only at h
    by_cases hcond : l.reverse = [] ∨ l.reverse.head? ≠ some start
    · rw [if_pos hcond] at h
      obtain rfl : ([] : List α) = p := by simpa using h
      exact absurd rfl hne
    · rw [if_neg hcond] at h
      obtain rfl : l.reverse = p := by simpa using h
      push_neg at hcond
      obtain ⟨ch, hl, hh, hc, m, hlast, hm⟩ :=
        walkLoop_ok cf (cf.length + 1) goal [] l hw
      rw [List.nil_append] at hl
      subst hl
      refine ⟨hcond.2, ?_, ?_⟩
      · rw [List.getLast?_reverse]
        exact hh
      · rw [List.chain'_reverse]
        exact hc.imp fun a b hab => hab

/-- `finish` copies the loop's counters into the result unchanged. -/
theorem finish_counters {α : Type} [DecidableEq α] (start goal : α)
    (out : List (α × Option α) × ℕ × List α) (r : SearchResult α)
    (h : finish start goal out = some r) :
    r.visited_count = out.2.1 ∧ r.visited_order = out.2.2 := by
  unfold finish at h
  match hrec : reconstruct_path out.1 start goal with
  | .ok p =>
    rw [hrec] at h
    obtain rfl := Option.some_injective _ h
    exact ⟨rfl, rfl⟩
  | .keyErr => rw [hrec] at h; exact absurd h (by simp)
  | .cyc => rw [hrec] at h; exact absurd h (by simp)

/-- `finish` succeeds exactly when the reconstruction does, and hands
its list through as the result's `path`. -/
theorem finish_path {α : Type} [DecidableEq α] (start goal : α)
    (out : List (α × Option α) × ℕ × List α) (r : SearchResult α)
    (h : finish start goal out = some r) :
    reconstruct_path out.1 start goal = .ok r.path := by
  unfold finish at h
  match hrec : reconstruct_path out.1 start goal with
  | .ok p =>
    rw [hrec] at h
    obtain rfl := Option.some_injective _ h
    rfl
  | .keyErr => rw [hrec] at h; exact absurd h (by simp)
  | .cyc => rw [hrec] at h; exact absurd h (by simp)

/-- Any non-empty path returned by the A* loop starts at `start`, ends
at `goal`, and follows edges, provided the incoming came-from map does
(which the initial map `{start: None}` trivially does). -/
theorem astarLoop_path {α : Type} [LinearOrder α] {β : Type} [Zero β] [One β]
    [Add β] [LinearOrder β] {P : Type} (adj : List (α × List α))
    (pos : List (α × P)) (euclid : P → P → β) (start goal : α) :
    ∀ (fuel : ℕ) (hp : List (β × α)) (cf : List (α × Option α))
      (gs : List (α × β)) (cnt : ℕ) (ord : List α) (r : SearchResult α),
      astarLoop adj pos euclid start goal fuel hp cf gs cnt ord = some r →
      CFok adj cf → r.path ≠ [] →
      r.path.head? = some start ∧ r.path.getLast? = some goal ∧
        List.Chain' (Edge adj) r.path := by
  intro fuel
  induction fuel with
  | zero => intro hp cf gs cnt ord r h hok hne; simp [astarLoop] at h
  | succ fuel ih =>
    intro hp cf gs cnt ord r h hok hne
    simp only [astarLoop] at h
    match hpop : popMin hp with
    | none =>
      rw [hpop] at h
      dsimp only at h
      obtain rfl := Option.some_injective _ h
      exact absurd rfl hne
    | some ((f, cur), rest) =>
      rw [hpop] at h
      dsimp only at h
      by_cases hg : cur = goal
      · rw [if_pos hg] at h
        match hrec : reconstruct_path cf start goal with
        | .ok p =>
          rw [hrec] at h
          obtain rfl := Option.some_injective _ h
          obtain ⟨h1, h2, h3⟩ := reconstruct_path_ok cf start goal p hrec hne
          exact ⟨h1, h2, h3.imp fun a b hab => hok b a hab⟩
        | .keyErr => rw [hrec] at h; exact absurd h (by simp)
        | .cyc => rw [hrec] at h; exact absurd h (by simp)
      · rw [if_neg hg] at h
        match hexp : astarExpand pos euclid goal cur (adjGet adj cur) cf gs rest with
        | none => rw [hexp] at h; exact absurd h (by simp)
        | some (cf', gs', hp') =>
          rw [hexp] at h
          exact ih _ _ _ _ _ _ h
            (astarExpand_CFok adj pos euclid goal cur _ cf gs rest cf' gs' hp'
              hexp (fun n hn => hn) hok) hne

/-- `dictMem` is monotone under adding a binding. -/
theorem dictMem_cons {α β : Type} [DecidableEq α] {d : List (α × β)} {m : α}
    (a : α) (b : β) (h : dictMem d m = true) :
    dictMem ((a, b) :: d) m = true := by
  unfold dictMem at *
  rw [dictFind_cons]
  by_cases hm : a = m
  · rw [if_pos hm]; rfl
  · rwa [if_neg hm]

theorem dictMem_cons_self {α β : Type} [DecidableEq α] (d : List (α × β))
    (a : α) (b : β) : dictMem ((a, b) :: d) a = true := by
  unfold dictMem
  rw [dictFind_cons, if_pos rfl]
  rfl

/-- First-discovery invariant through one expansion: if the visited
prefix `vs` and the frontier are duplicate-free and consist of
discovered nodes, the same holds after pushing `cur`'s undiscovered
neighbors (for any `push` that permutes to consing, i.e. both the BFS
append and the DFS cons). -/
theorem expandNbrs_nodup {α : Type} [DecidableEq α] (cur : α)
    (push : List α → α → List α)
    (hPerm : ∀ (fr : List α) (n : α), (push fr n).Perm (n :: fr))
    (vs : List α) :
    ∀ (ns : List α) (cf : List (α × Option α)) (fr : List α),
      (vs ++ fr).Nodup → (∀ n ∈ vs ++ fr, dictMem cf n = true) →
      ((vs ++ (expandNbrs cur push ns cf fr).2).Nodup ∧
        (∀ n ∈ vs ++ (expandNbrs cur push ns cf fr).2,
          dictMem (expandNbrs cur push ns cf fr).1 n = true)) := by
  intro ns
  induction ns with
  | nil => intro cf fr hnd hmem; exact ⟨hnd, hmem⟩
  | cons n ns ih =>
    intro cf fr hnd hmem
    simp only [expandNbrs]
    by_cases hin : dictMem cf n
    · rw [if_pos hin]
      exact ih cf fr hnd hmem
    · rw [if_neg hin]
      have hfresh : n ∉ vs ++ fr := fun hn => hin (hmem n hn)
      have hperm : (vs ++ push fr n).Perm (n :: (vs ++ fr)) :=
        ((hPerm fr n).append_left vs).trans List.perm_middle
      refine ih _ _ (hperm.nodup_iff.mpr (List.nodup_cons.mpr ⟨hfresh, hnd⟩))
        fun m hm => ?_
      rcases (List.mem_cons.mp (hperm.mem_iff.mp hm)) with rfl | hm'
      · exact dictMem_cons_self cf m (some cur)
      · exact dictMem_cons n (some cur) (hmem m hm')

/-- The BFS/DFS loop never records a node twice: each node enters the
frontier at most once over the whole search. -/
theorem searchLoop_nodup {α : Type} [DecidableEq α] (adj : List (α × List α))
    (goal : α) (push : List α → α → List α)
    (hPerm : ∀ (fr : List α) (n : α), (push fr n).Perm (n :: fr)) :
    ∀ (fuel : ℕ) (cf : List (α × Option α)) (fr : List α) (cnt : ℕ)
      (ord : List α) (out : List (α × Option α) × ℕ × List α),
      searchLoop adj goal push fuel cf fr cnt ord = some out →
      (ord ++ fr).Nodup → (∀ n ∈ ord ++ fr, dictMem cf n = true) →
      out.2.2.Nodup := by
  intro fuel
  induction fuel with
  | zero => intro cf fr cnt ord out h hnd hmem; simp [searchLoop] at h
  | succ fuel ih =>
    intro cf fr cnt ord out h hnd hmem
    match fr with
    | [] =>
      simp only [searchLoop] at h
      obtain rfl := Option.some_injective _ h
      simpa using hnd
    | cur :: rest =>
      simp only [searchLoop] at h
      by_cases hg : cur = goal
      · rw [if_pos hg] at h
        obtain rfl := Option.some_injective _ h
        exact hnd.sublist (((List.nil_sublist rest).cons₂ cur).append_left ord)
      · rw [if_neg hg] at h
        have hnd' : ((ord ++ [cur]) ++ rest).Nodup := by
          rwa [List.append_assoc, List.singleton_append]
        have hmem' : ∀ n ∈ (ord ++ [cur]) ++ rest, dictMem cf n = true := by
          intro n hn
          apply hmem
          rwa [List.append_assoc, List.singleton_append] at hn
        obtain ⟨hnd2, hmem2⟩ := expandNbrs_nodup cur push hPerm (ord ++ [cur])
          (adjGet adj cur) cf rest hnd' hmem'
        exact ih _ _ _ _ _ h hnd2 hmem2

/-! ## Shortest path lengths (C2) -/

section Shortest

variable {α : Type} [DecidableEq α]

/-- `k` is the minimum number of edges over all `s → n` paths: attained
by some path and a lower bound for every path. -/
def ShortestLen (adj : List (α × List α)) (s n : α) (k : ℕ) : Prop :=
  (∃ p, IsPathFrom adj s n p ∧ p.length = k + 1) ∧
    ∀ p, IsPathFrom adj s n p → k + 1 ≤ p.length

theorem IsPathFrom.nonnil {adj : List (α × List α)} {s n : α} {p : List α}
    (h : IsPathFrom adj s n p) : p ≠ [] := by
  intro hemp
  rw [hemp] at h
  exact absurd h.1 (by simp)

theorem IsPathFrom.one_le_length {adj : List (α × List α)} {s n : α}
    {p : List α} (h : IsPathFrom adj s n p) : 1 ≤ p.length :=
  List.length_pos_of_ne_nil h.nonnil

theorem isPathFrom_singleton (adj : List (α × List α)) (s : α) :
    IsPathFrom adj s s [s] :=
  ⟨rfl, rfl, List.chain'_singleton s⟩

theorem shortestLen_unique {adj : List (α × List α)} {s n : α} {k k' : ℕ}
    (h : ShortestLen adj s n k) (h' : ShortestLen adj s n k') : k = k' := by
  obtain ⟨⟨p, hp, hl⟩, hmin⟩ := h
  obtain ⟨⟨p', hp', hl'⟩, hmin'⟩ := h'
  have h1 := hmin p' hp'
  have h2 := hmin' p hp
  omega

theorem shortestLen_exists {adj : List (α × List α)} {s n : α}
    (h : ∃ p, IsPathFrom adj s n p) : ∃ k, ShortestLen adj s n k := by
  classical
  obtain ⟨p, hp⟩ := h
  have hex : ∃ m, ∃ q, IsPathFrom adj s n q ∧ q.length = m :=
    ⟨p.length, p, hp, rfl⟩
  obtain ⟨q, hq, hql⟩ := Nat.find_spec hex
  have hone : 1 ≤ Nat.find hex := by
    rw [← hql] at *
    exact hq.one_le_length.trans (le_of_eq hql)
  refine ⟨Nat.find hex - 1, ⟨q, hq, by omega⟩, fun r hr => ?_⟩
  have := Nat.find_min' hex ⟨r, hr, rfl⟩
  omega

theorem shortestLen_self (adj : List (α × List α)) (s : α) :
    ShortestLen adj s s 0 :=
  ⟨⟨[s], isPathFrom_singleton adj s, rfl⟩, fun p hp => hp.one_le_length⟩

theorem shortestLen_zero {adj : List (α × List α)} {s n : α}
    (h : ShortestLen adj s n 0) : n = s := by
  obtain ⟨⟨p, hp, hl⟩, _⟩ := h
  match p, hl with
  | [x], _ =>
    have h1 : x = s := by simpa using hp.1
    have h2 : x = n := by simpa using hp.2.1
    rw [← h1, h2]

/-- Extending a path by one edge. -/
theorem isPathFrom_snoc {adj : List (α × List α)} {s u w : α} {p : List α}
    (hp : IsPathFrom adj s u p) (he : Edge adj u w) :
    IsPathFrom adj s w (p ++ [w]) := by
  have hne := hp.nonnil
  obtain ⟨h1, h2, h3⟩ := hp
  refine ⟨?_, ?_, ?_⟩
  · rw [List.head?_append_of_ne_nil _ hne]
    exact h1
  · simp
  · rw [List.chain'_append]
    refine ⟨h3, List.chain'_singleton w, fun x hx y hy => ?_⟩
    rw [h2] at hx
    obtain rfl := Option.mem_some_iff.mp hx
    obtain rfl : w = y := by simpa using hy
    exact he

/-- Peeling the last edge off a path of at least one edge. -/
theorem isPathFrom_drop_last {adj : List (α × List α)} {s n : α} {p : List α}
    {k : ℕ} (hp : IsPathFrom adj s n p) (hl : p.length = k + 1) (hk : 1 ≤ k) :
    ∃ q u, IsPathFrom adj s u q ∧ q.length = k ∧ Edge adj u n := by
  obtain ⟨q, a, hqa⟩ : ∃ q a, p = q ++ [a] := by
    rcases List.eq_nil_or_concat p with rfl | ⟨q, a, h⟩
    · exact absurd rfl hp.nonnil
    · exact ⟨q, a, by simpa using h⟩
  subst hqa
  have han : a = n := by
    have hgl := hp.2.1
    rw [List.getLast?_concat] at hgl
    exact Option.some_injective _ hgl
  have hqlen : q.length = k := by
    rw [List.length_append] at hl
    simpa using hl
  have hqne : q ≠ [] := by
    intro hemp
    rw [hemp] at hqlen
    simp at hqlen
    omega
  obtain ⟨u, hu⟩ : ∃ u, q.getLast? = some u :=
    Option.isSome_iff_exists.mp (by rwa [List.getLast?_isSome])
  have hchain := hp.2.2
  rw [List.chain'_append] at hchain
  refine ⟨q, u, ⟨?_, hu, hchain.1⟩, hqlen, ?_⟩
  · have := hp.1
    rwa [List.head?_append_of_ne_nil _ hqne] at this
  · have := hchain.2.2 u (by rw [hu]; rfl) a rfl
    rwa [han] at this

end Shortest

/-! ## Backward came-from chains (C2) -/

/-- The backward came-from chain as a list: `ChainL cf n l` states that
the backward walk from `n` terminates and visits exactly the nodes of
`l` in order (so `l` starts at `n` and ends at a node bound to
`None`). -/
inductive ChainL {α : Type} [DecidableEq α] (cf : List (α × Option α)) :
    α → List α → Prop
  | zero (n : α) : dictFind cf n = some none → ChainL cf n [n]
  | succ (n p : α) (l : List α) : dictFind cf n = some (some p) →
      ChainL cf p l → ChainL cf n (n :: l)

section Chains

variable {α : Type} [DecidableEq α]

theorem ChainL.ne_nil {cf : List (α × Option α)} {n : α} {l : List α}
    (h : ChainL cf n l) : l ≠ [] := by
  cases h <;> simp

theorem ChainL.head_eq {cf : List (α × Option α)} {n : α} {l : List α}
    (h : ChainL cf n l) : l.head? = some n := by
  cases h <;> rfl

theorem ChainL.mem_keys {cf : List (α × Option α)} {n : α} {l : List α}
    (h : ChainL cf n l) : ∀ m ∈ l, dictMem cf m = true := by
  induction h with
  | zero n hn =>
    intro m hm
    obtain rfl : m = n := by simpa using hm
    unfold dictMem
    rw [hn]
    rfl
  | succ n p l hn hp ih =>
    intro m hm
    rcases List.mem_cons.mp hm with rfl | hm'
    · unfold dictMem
      rw [hn]
      rfl
    · exact ih m hm'

theorem ChainL.det {cf : List (α × Option α)} {n : α} {l l' : List α}
    (h : ChainL cf n l) (h' : ChainL cf n l') : l = l' := by
  induction h generalizing l' with
  | zero n hn =>
    cases h' with
    | zero _ _ => rfl
    | succ _ p _ hp _ => rw [hn] at hp; exact absurd hp (by simp)
  | succ n p l hn hp ih =>
    cases h' with
    | zero _ hn' => rw [hn] at hn'; exact absurd hn' (by simp)
    | succ _ p' l2 hn' hp' =>
      obtain rfl : p = p' := by
        rw [hn] at hn'
        simpa using hn'
      rw [ih hp']

theorem ChainL.getLast_none {cf : List (α × Option α)} {n : α} {l : List α}
    (h : ChainL cf n l) :
    ∃ m, l.getLast? = some m ∧ dictFind cf m = some none := by
  induction h with
  | zero n hn => exact ⟨n, rfl, hn⟩
  | succ n p l hn hp ih =>
    obtain ⟨m, hm, hfind⟩ := ih
    refine ⟨m, ?_, hfind⟩
    match l, hp.ne_nil, hm with
    | c :: l', _, hm => rw [List.getLast?_cons_cons]; exact hm

theorem ChainL.suffix_of_mem {cf : List (α × Option α)} {n : α} {l : List α}
    (h : ChainL cf n l) :
    ∀ m ∈ l, ∃ suf, ChainL cf m suf ∧ suf.length ≤ l.length := by
  induction h with
  | zero n hn =>
    intro m hm
    obtain rfl : m = n := by simpa using hm
    exact ⟨[m], ChainL.zero m hn, le_refl _⟩
  | succ n p l hn hp ih =>
    intro m hm
    rcases List.mem_cons.mp hm with rfl | hm'
    · exact ⟨m :: l, ChainL.succ m p l hn hp, le_refl _⟩
    · obtain ⟨suf, hsuf, hlen⟩ := ih m hm'
      exact ⟨suf, hsuf, hlen.trans (by simp)⟩

theorem ChainL.nodup {cf : List (α × Option α)} {n : α} {l : List α}
    (h : ChainL cf n l) : l.Nodup := by
  induction h with
  | zero n hn => simp
  | succ n p l hn hp ih =>
    rw [List.nodup_cons]
    refine ⟨fun hmem => ?_, ih⟩
    obtain ⟨suf, hsuf, hlen⟩ := hp.suffix_of_mem n hmem
    have : n :: l = suf := (ChainL.succ n p l hn hp).det hsuf
    rw [← this] at hlen
    simp only [List.length_cons] at hlen
    omega

theorem dictFind_some_mem_keys {cf : List (α × Option α)} {m : α}
    {v : Option α} (h : dictFind cf m = some v) : m ∈ cf.map Prod.fst := by
  induction cf with
  | nil => exact absurd h (by simp [dictFind])
  | cons e t ih =>
    obtain ⟨a, b⟩ := e
    rw [dictFind_cons] at h
    by_cases ha : a = m
    · simp [ha]
    · rw [if_neg ha] at h
      simpa using Or.inr (ih h)

theorem ChainL.length_le {cf : List (α × Option α)} {n : α} {l : List α}
    (h : ChainL cf n l) : l.length ≤ cf.length := by
  have hsub : l.toFinset ⊆ (cf.map Prod.fst).toFinset := by
    intro m hm
    rw [List.mem_toFinset] at hm
    rw [List.mem_toFinset]
    have := h.mem_keys m hm
    unfold dictMem at this
    obtain ⟨v, hv⟩ := Option.isSome_iff_exists.mp this
    exact dictFind_some_mem_keys hv
  calc l.length = l.toFinset.card := (List.toFinset_card_of_nodup h.nodup).symm
    _ ≤ (cf.map Prod.fst).toFinset.card := Finset.card_le_card hsub
    _ ≤ (cf.map Prod.fst).length := List.toFinset_card_le (cf.map Prod.fst)
    _ = cf.length := List.length_map cf Prod.fst

/-- Adding a binding for an unbound key preserves all chains. -/
theorem ChainL.persist {cf : List (α × Option α)} {w : α} {x : Option α}
    {n : α} {l : List α} (hw : dictFind cf w = none) (h : ChainL cf n l) :
    ChainL ((w, x) :: cf) n l := by
  induction h with
  | zero n hn =>
    refine ChainL.zero n ?_
    rw [dictFind_cons, if_neg (fun he => by rw [he, hn] at hw; simp at hw)]
    exact hn
  | succ n p l hn hp ih =>
    refine ChainL.succ n p l ?_ ih
    rw [dictFind_cons, if_neg (fun he => by rw [he, hn] at hw; simp at hw)]
    exact hn

/-- The chain of a freshly pushed node: itself, then its parent's
chain. -/
theorem ChainL.push {cf : List (α × Option α)} {w cur : α} {l : List α}
    (hw : dictFind cf w = none) (h : ChainL cf cur l) :
    ChainL ((w, some cur) :: cf) w (w :: l) :=
  ChainL.succ w cur l (by rw [dictFind_cons, if_pos rfl]) (h.persist hw)

/-- The walk loop follows a chain verbatim when given enough fuel. -/
theorem ChainL.walk {cf : List (α × Option α)} {n : α} {l : List α}
    (h : ChainL cf n l) :
    ∀ (fuel : ℕ), l.length ≤ fuel → ∀ acc,
      walkLoop cf fuel n acc = .ok (acc ++ l) := by
  induction h with
  | zero n hn =>
    intro fuel hfuel acc
    match fuel, hfuel with
    | f + 1, _ =>
      simp only [walkLoop]
      rw [hn]
  | succ n p l hn hp ih =>
    intro fuel hfuel acc
    match fuel, hfuel with
    | f + 1, hf =>
      simp only [walkLoop]
      rw [hn]
      dsimp only
      have : l.length ≤ f := by
        simp only [List.length_cons] at hf
        omega
      rw [ih f this (acc ++ [n])]
      simp

/-- Under the loop invariants, a chain read backward is a real path of
the graph from `s`. -/
theorem ChainL.toPath {adj : List (α × List α)} {cf : List (α × Option α)}
    {s n : α} {l : List α} (h : ChainL cf n l)
    (hedges : ∀ m p, dictFind cf m = some (some p) → Edge adj p m)
    (hstart : ∀ m, dictFind cf m = some none → m = s) :
    IsPathFrom adj s n l.reverse := by
  induction h with
  | zero n hn =>
    obtain rfl := hstart n hn
    exact isPathFrom_singleton adj n
  | succ n p l hn hp ih =>
    have : (n :: l).reverse = l.reverse ++ [n] := by simp
    rw [this]
    exact isPathFrom_snoc ih (hedges n p hn)

end Chains

/-! ## Termination measure and expansion bookkeeping (C2) -/

section Expansion

variable {α : Type} [DecidableEq α]

/-- Nodes of the adjacency universe not yet discovered; together with
the frontier length this bounds the remaining loop iterations. -/
def undisc (adj : List (α × List α)) (cf : List (α × Option α)) : ℕ :=
  ((univFS adj).filter (fun n => ¬ dictMem cf n = true)).card

theorem dictMem_false_iff {cf : List (α × Option α)} {n : α} :
    dictMem cf n = false ↔ dictFind cf n = none := by
  unfold dictMem
  cases dictFind cf n <;> simp

theorem dictFind_mem {d : List (α × Option α)} {k : α} {v : Option α}
    (h : dictFind d k = some v) : (k, v) ∈ d := by
  induction d with
  | nil => exact absurd h (by simp [dictFind])
  | cons e t ih =>
    obtain ⟨a, b⟩ := e
    rw [dictFind_cons] at h
    by_cases ha : a = k
    · rw [if_pos ha] at h
      obtain rfl := Option.some_injective _ h
      simp [ha]
    · rw [if_neg ha] at h
      exact List.mem_cons_of_mem _ (ih h)

theorem adjGet_mem_univFS {adj : List (α × List α)} {u n : α}
    (h : n ∈ adjGet adj u) : n ∈ univFS adj := by
  unfold adjGet at h
  match hf : dictFind adj u with
  | none => rw [hf] at h; simp at h
  | some l =>
    rw [hf] at h
    simp only [Option.getD_some] at h
    have hmem : (u, l) ∈ adj := by
      clear h
      induction adj with
      | nil => exact absurd hf (by simp [dictFind])
      | cons e t ih =>
        obtain ⟨a, b⟩ := e
        rw [dictFind_cons] at hf
        by_cases ha : a = u
        · rw [if_pos ha] at hf
          obtain rfl := Option.some_injective _ hf
          simp [ha]
        · rw [if_neg ha] at hf
          exact List.mem_cons_of_mem _ (ih hf)
    unfold univFS
    rw [Finset.mem_union]
    refine Or.inr ?_
    rw [List.mem_toFinset, List.mem_flatten]
    exact ⟨l, List.mem_map_of_mem Prod.snd hmem, h⟩

/-- A fresh binding of a universe node strictly shrinks the
undiscovered set. -/
theorem undisc_cons {adj : List (α × List α)} {cf : List (α × Option α)}
    {w : α} (x : Option α) (hw : w ∈ univFS adj)
    (hnew : dictMem cf w = false) :
    undisc adj ((w, x) :: cf) + 1 ≤ undisc adj cf := by
  unfold undisc
  have hset : (univFS adj).filter (fun n => ¬ dictMem ((w, x) :: cf) n = true) =
      ((univFS adj).filter (fun n => ¬ dictMem cf n = true)).erase w := by
    ext n
    rw [Finset.mem_erase, Finset.mem_filter, Finset.mem_filter]
    constructor
    · intro ⟨hu, hnm⟩
      have hne : n ≠ w := by
        intro rfl'
        subst rfl'
        exact hnm (dictMem_cons_self cf n x)
      refine ⟨hne, hu, fun hm => hnm (dictMem_cons w x hm)⟩
    · intro ⟨hne, hu, hnm⟩
      refine ⟨hu, fun hm => ?_⟩
      unfold dictMem at hm
      rw [dictFind_cons, if_neg (fun he => hne he.symm)] at hm
      exact hnm hm
  rw [hset]
  have hwmem : w ∈ (univFS adj).filter (fun n => ¬ dictMem cf n = true) := by
    rw [Finset.mem_filter]
    exact ⟨hw, by rw [hnew]; simp⟩
  rw [Finset.card_erase_of_mem hwmem]
  have := Finset.card_pos.mpr ⟨w, hwmem⟩
  omega

/-- The expansion step cannot increase `undiscovered + frontier length`
(each push discovers a universe node). -/
theorem expandNbrs_measure (adj : List (α × List α)) (cur : α) :
    ∀ (ns : List α) (cf : List (α × Option α)) (fr : List α),
      (∀ n ∈ ns, n ∈ univFS adj) →
      undisc adj (expandNbrs cur (fun l n => l ++ [n]) ns cf fr).1 +
          (expandNbrs cur (fun l n => l ++ [n]) ns cf fr).2.length ≤
        undisc adj cf + fr.length := by
  intro ns
  induction ns with
  | nil => intro cf fr hns; exact le_refl _
  | cons n ns ih =>
    intro cf fr hns
    simp only [expandNbrs]
    by_cases hmem : dictMem cf n
    · rw [if_pos hmem]
      exact ih cf fr fun m hm => hns m (List.mem_cons_of_mem _ hm)
    · rw [if_neg hmem]
      refine (ih _ _ fun m hm => hns m (List.mem_cons_of_mem _ hm)).trans ?_
      have hfalse : dictMem cf n = false := by
        revert hmem; cases dictMem cf n <;> simp
      have := undisc_cons (some cur) (hns n (List.mem_cons_self n ns)) hfalse
      simp only [List.length_append, List.length_singleton]
      omega

/-- Existing bindings survive an expansion unchanged. -/
theorem expandNbrs_find_preserve (cur : α) (push : List α → α → List α) :
    ∀ (ns : List α) (cf : List (α × Option α)) (fr : List α) (m : α)
      (v : Option α), dictFind cf m = some v →
      dictFind (expandNbrs cur push ns cf fr).1 m = some v := by
  intro ns
  induction ns with
  | nil => intro cf fr m v h; exact h
  | cons n ns ih =>
    intro cf fr m v h
    simp only [expandNbrs]
    by_cases hmem : dictMem cf n
    · rw [if_pos hmem]; exact ih _ _ _ _ h
    · rw [if_neg hmem]
      refine ih _ _ _ _ ?_
      rw [dictFind_cons, if_neg ?_]
      · exact h
      · intro he
        subst he
        unfold dictMem at hmem
        rw [h] at hmem
        exact hmem rfl

theorem expandNbrs_mem_preserve (cur : α) (push : List α → α → List α)
    (ns : List α) (cf : List (α × Option α)) (fr : List α) (m : α)
    (h : dictMem cf m = true) :
    dictMem (expandNbrs cur push ns cf fr).1 m = true := by
  unfold dictMem at h
  obtain ⟨v, hv⟩ := Option.isSome_iff_exists.mp h
  unfold dictMem
  rw [expandNbrs_find_preserve cur push ns cf fr m v hv]
  rfl

/-- New bindings introduced by an expansion point back at `cur` and
concern listed neighbors only. -/
theorem expandNbrs_find_new (cur : α) (push : List α → α → List α) :
    ∀ (ns : List α) (cf : List (α × Option α)) (fr : List α) (m : α)
      (v : Option α),
      dictFind (expandNbrs cur push ns cf fr).1 m = some v →
      dictFind cf m = some v ∨ (v = some cur ∧ m ∈ ns) := by
  intro ns
  induction ns with
  | nil => intro cf fr m v h; exact Or.inl h
  | cons n ns ih =>
    intro cf fr m v h
    simp only [expandNbrs] at h
    by_cases hmem : dictMem cf n
    · rw [if_pos hmem] at h
      rcases ih _ _ _ _ h with h' | ⟨rfl, hm⟩
      · exact Or.inl h'
      · exact Or.inr ⟨rfl, List.mem_cons_of_mem _ hm⟩
    · rw [if_neg hmem] at h
      rcases ih _ _ _ _ h with h' | ⟨rfl, hm⟩
      · rw [dictFind_cons] at h'
        by_cases hnm : n = m
        · rw [if_pos hnm] at h'
          obtain rfl := Option.some_injective _ h'
          exact Or.inr ⟨rfl, hnm ▸ List.mem_cons_self n ns⟩
        · rw [if_neg hnm] at h'
          exact Or.inl h'
      · exact Or.inr ⟨rfl, List.mem_cons_of_mem _ hm⟩

/-- Every listed neighbor is discovered after the expansion. -/
theorem expandNbrs_discovers (cur : α) (push : List α → α → List α) :
    ∀ (ns : List α) (cf : List (α × Option α)) (fr : List α),
      ∀ n ∈ ns, dictMem (expandNbrs cur push ns cf fr).1 n = true := by
  intro ns
  induction ns with
  | nil => intro cf fr n hn; simp at hn
  | cons n ns ih =>
    intro cf fr m hm
    simp only [expandNbrs]
    by_cases hmem : dictMem cf n
    · rw [if_pos hmem]
      rcases List.mem_cons.mp hm with rfl | hm'
      · exact expandNbrs_mem_preserve cur push ns cf fr m hmem
      · exact ih _ _ m hm'
    · rw [if_neg hmem]
      rcases List.mem_cons.mp hm with rfl | hm'
      · exact expandNbrs_mem_preserve cur push ns _ _ m
          (dictMem_cons_self cf m (some cur))
      · exact ih _ _ m hm'

/-- Frontier membership is monotone through an expansion (for the BFS
append push). -/
theorem expandNbrs_frontier_mono (cur : α) :
    ∀ (ns : List α) (cf : List (α × Option α)) (fr : List α) (m : α),
      m ∈ fr → m ∈ (expandNbrs cur (fun l n => l ++ [n]) ns cf fr).2 := by
  intro ns
  induction ns with
  | nil => intro cf fr m hm; exact hm
  | cons n ns ih =>
    intro cf fr m hm
    simp only [expandNbrs]
    by_cases hmem : dictMem cf n
    · rw [if_pos hmem]; exact ih _ _ _ hm
    · rw [if_neg hmem]
      exact ih _ _ _ (List.mem_append_left _ hm)

/-- Every node discovered after an expansion is either previously
discovered or sits on the new frontier. -/
theorem expandNbrs_split (cur : α) :
    ∀ (ns : List α) (cf : List (α × Option α)) (fr : List α) (m : α),
      dictMem (expandNbrs cur (fun l n => l ++ [n]) ns cf fr).1 m = true →
      dictMem cf m = true ∨ m ∈ (expandNbrs cur (fun l n => l ++ [n]) ns cf fr).2 := by
  intro ns
  induction ns with
  | nil => intro cf fr m h; exact Or.inl h
  | cons n ns ih =>
    intro cf fr m h
    simp only [expandNbrs] at h ⊢
    by_cases hmem : dictMem cf n
    · rw [if_pos hmem] at h ⊢
      exact ih _ _ _ h
    · rw [if_neg hmem] at h ⊢
      rcases ih _ _ _ h with h' | h'
      · unfold dictMem at h'
        rw [dictFind_cons] at h'
        by_cases hnm : n = m
        · subst hnm
          refine Or.inr (expandNbrs_frontier_mono cur ns _ _ n ?_)
          exact List.mem_append_right _ (List.mem_singleton_self n)
        · rw [if_neg hnm] at h'
          exact Or.inl h'
      · exact Or.inr h'

/-- Discovered frontier nodes stay discovered: if every frontier node is
marked before an expansion, the same holds after. -/
theorem expandNbrs_frontier_disc (cur : α) :
    ∀ (ns : List α) (cf : List (α × Option α)) (fr : List α),
      (∀ m ∈ fr, dictMem cf m = true) →
      ∀ m ∈ (expandNbrs cur (fun l n => l ++ [n]) ns cf fr).2,
        dictMem (expandNbrs cur (fun l n => l ++ [n]) ns cf fr).1 m = true := by
  intro ns
  induction ns with
  | nil => intro cf fr hfr m hm; exact hfr m hm
  | cons n ns ih =>
    intro cf fr hfr m hm
    simp only [expandNbrs] at hm ⊢
    by_cases hmem : dictMem cf n
    · rw [if_pos hmem] at hm ⊢
      exact ih _ _ hfr m hm
    · rw [if_neg hmem] at hm ⊢
      refine ih _ _ ?_ m hm
      intro m' hm'
      rcases List.mem_append.mp hm' with h' | h'
      · exact dictMem_cons n (some cur) (hfr m' h')
      · obtain rfl : m' = n := by simpa using h'
        exact dictMem_cons_self cf m' (some cur)

/-- Chains and depth labels through one full expansion of `cur` (BFS
push): the frontier grows by freshly discovered neighbors, all labelled
`dcur + 1`, and every discovered node keeps a shortest chain.  The last
hypothesis — that any undiscovered neighbor of `cur` has shortest
distance exactly `dcur + 1` — is supplied by the loop-level level
argument. -/
theorem expandNbrs_chains (adj : List (α × List α)) (s cur : α) (dcur : ℕ) :
    ∀ (ns : List α) (cf : List (α × Option α)) (fr : List α) (ds : List ℕ),
      (∀ n ∈ ns, Edge adj cur n) →
      (∃ lc, ChainL cf cur lc ∧ lc.length = dcur + 1) →
      List.Forall₂ (fun n k => ∃ l, ChainL cf n l ∧ l.length = k + 1) fr ds →
      (∀ n, dictMem cf n = true →
        ∃ l, ChainL cf n l ∧ ShortestLen adj s n (l.length - 1)) →
      (∀ n, Edge adj cur n → dictMem cf n = false →
        ShortestLen adj s n (dcur + 1)) →
      ∃ m,
        List.Forall₂
          (fun n k => ∃ l,
            ChainL (expandNbrs cur (fun l2 x => l2 ++ [x]) ns cf fr).1 n l ∧
              l.length = k + 1)
          (expandNbrs cur (fun l2 x => l2 ++ [x]) ns cf fr).2
          (ds ++ List.replicate m (dcur + 1)) ∧
        (∀ n, dictMem (expandNbrs cur (fun l2 x => l2 ++ [x]) ns cf fr).1 n = true →
          ∃ l, ChainL (expandNbrs cur (fun l2 x => l2 ++ [x]) ns cf fr).1 n l ∧
            ShortestLen adj s n (l.length - 1)) := by
  intro ns
  induction ns with
  | nil =>
    intro cf fr ds hns hcur hfr hdepth hSLnew
    exact ⟨0, by simpa using hfr, hdepth⟩
  | cons n ns ih =>
    intro cf fr ds hns hcur hfr hdepth hSLnew
    simp only [expandNbrs]
    by_cases hmem : dictMem cf n
    · rw [if_pos hmem]
      exact ih cf fr ds (fun m hm => hns m (List.mem_cons_of_mem _ hm)) hcur
        hfr hdepth hSLnew
    · rw [if_neg hmem]
      have hfalse : dictMem cf n = false := by
        revert hmem; cases dictMem cf n <;> simp
      have hnone : dictFind cf n = none := dictMem_false_iff.mp hfalse
      obtain ⟨lc, hlc, hlclen⟩ := hcur
      have hSLn : ShortestLen adj s n (dcur + 1) :=
        hSLnew n (hns n (List.mem_cons_self n ns)) hfalse
      have hdepth2 : ∀ m', dictMem ((n, some cur) :: cf) m' = true →
          ∃ l, ChainL ((n, some cur) :: cf) m' l ∧
            ShortestLen adj s m' (l.length - 1) := by
        intro m' hm'
        unfold dictMem at hm'
        rw [dictFind_cons] at hm'
        by_cases hnm : n = m'
        · subst hnm
          refine ⟨n :: lc, hlc.push hnone, ?_⟩
          have hll : (n :: lc).length - 1 = dcur + 1 := by
            simp [hlclen]
          rw [hll]
          exact hSLn
        · rw [if_neg hnm] at hm'
          obtain ⟨l, hl, hsl⟩ := hdepth m' hm'
          exact ⟨l, hl.persist hnone, hsl⟩
      have hSLnew2 : ∀ n', Edge adj cur n' →
          dictMem ((n, some cur) :: cf) n' = false →
          ShortestLen adj s n' (dcur + 1) := by
        intro n' he hf'
        refine hSLnew n' he ?_
        rw [dictMem_false_iff] at hf' ⊢
        rw [dictFind_cons] at hf'
        by_cases hnn : n = n'
        · rw [if_pos hnn] at hf'; exact absurd hf' (by simp)
        · rwa [if_neg hnn] at hf'
      have hfr2 : List.Forall₂
          (fun n' k => ∃ l, ChainL ((n, some cur) :: cf) n' l ∧
            l.length = k + 1) (fr ++ [n]) (ds ++ [dcur + 1]) := by
        refine List.rel_append (hfr.imp fun a b hab => ?_) ?_
        · obtain ⟨l, hl, hlen⟩ := hab
          exact ⟨l, hl.persist hnone, hlen⟩
        · refine List.forall₂_cons.mpr ⟨⟨n :: lc, hlc.push hnone, ?_⟩,
            List.Forall₂.nil⟩
          simp [hlclen]
      obtain ⟨m, hm1, hm2⟩ := ih ((n, some cur) :: cf) (fr ++ [n])
        (ds ++ [dcur + 1]) (fun m hm => hns m (List.mem_cons_of_mem _ hm))
        ⟨lc, hlc.persist hnone, hlclen⟩ hfr2 hdepth2 hSLnew2
      refine ⟨m + 1, ?_, hm2⟩
      have hds : ds ++ List.replicate (m + 1) (dcur + 1) =
          (ds ++ [dcur + 1]) ++ List.replicate m (dcur + 1) := by
        rw [List.replicate_succ, List.append_assoc]
        rfl
      rw [hds]
      exact hm1

theorem forall₂_mem_left {γ δ : Type} {R : γ → δ → Prop} :
    ∀ {l₁ : List γ} {l₂ : List δ}, List.Forall₂ R l₁ l₂ →
      ∀ a ∈ l₁, ∃ b ∈ l₂, R a b := by
  intro l₁ l₂ h
  induction h with
  | nil => intro a ha; simp at ha
  | cons hab h2 ih =>
    intro a ha
    rcases List.mem_cons.mp ha with rfl | ha'
    · exact ⟨_, List.mem_cons_self _ _, hab⟩
    · obtain ⟨b, hb, hr⟩ := ih a ha'
      exact ⟨b, List.mem_cons_of_mem _ hb, hr⟩

/-- Level completeness, derivable from the other invariants: every node
strictly closer to `s` than the least frontier depth label (every
reachable node at all, when the frontier is empty) has already been
expanded. -/
theorem complete_of_inv (adj : List (α × List α)) (s : α)
    (cf : List (α × Option α)) (fr vis : List α) (ds : List ℕ)
    (hstart : dictFind cf s = some none)
    (hsplit : ∀ n, dictMem cf n = true → n ∈ vis ∨ n ∈ fr)
    (hdepth : ∀ n, dictMem cf n = true →
      ∃ l, ChainL cf n l ∧ ShortestLen adj s n (l.length - 1))
    (hfr : List.Forall₂ (fun n k => ∃ l, ChainL cf n l ∧ l.length = k + 1) fr ds)
    (hsorted : ds.Sorted (· ≤ ·))
    (hexp : ∀ u ∈ vis, ∀ w, Edge adj u w → dictMem cf w = true) :
    ∀ (k : ℕ) (n : α), ShortestLen adj s n k →
      (∀ k0 ∈ ds.head?, k < k0) → n ∈ vis := by
  intro k
  induction k using Nat.strong_induction_on with
  | _ k ih =>
    intro n hSL hcond
    by_cases hm : dictMem cf n = true
    · rcases hsplit n hm with hv | hf
      · exact hv
      · exfalso
        obtain ⟨kn, hknds, l, hl, hlen⟩ := forall₂_mem_left hfr n hf
        obtain ⟨l', hl', hsl'⟩ := hdepth n hm
        obtain rfl := hl.det hl'
        rw [hlen] at hsl'
        simp only [Nat.add_sub_cancel] at hsl'
        have hkkn : k = kn := shortestLen_unique hSL hsl'
        match ds, hknds, hsorted, hcond with
        | k0 :: dt, hknds, hsorted, hcond =>
          have hk0 : k0 ≤ kn := by
            rcases List.mem_cons.mp hknds with rfl | hmem'
            · exact le_refl _
            · exact List.rel_of_sorted_cons hsorted kn hmem'
          have := hcond k0 rfl
          omega
    · by_cases hk : k = 0
      · subst hk
        obtain rfl := shortestLen_zero hSL
        unfold dictMem at hm
        rw [hstart] at hm
        exact absurd rfl hm
      · obtain ⟨⟨p, hp, hplen⟩, hmin⟩ := hSL
        obtain ⟨q, u, hq, hqlen, hedge⟩ :=
          isPathFrom_drop_last hp hplen (by omega)
        obtain ⟨j, hSLu⟩ := shortestLen_exists ⟨q, hq⟩
        have hj : j < k := by
          have := hSLu.2 q hq
          omega
        have hu : u ∈ vis :=
          ih j hj u hSLu fun k0 hk0 => (hj.trans (hcond k0 hk0))
        exact absurd (hexp u hu n hedge) hm

end Expansion

/-- The BFS loop invariant: the came-from map binds `None` exactly at
`s` and otherwise records edges; discovered = visited ∪ frontier; every
discovered node carries a came-from chain realizing its shortest
distance; the frontier's depth labels are sorted and span at most two
consecutive levels; visited nodes are fully expanded. -/
structure BFSInv {α : Type} [DecidableEq α] (adj : List (α × List α)) (s : α)
    (cf : List (α × Option α)) (fr vis : List α) (ds : List ℕ) : Prop where
  start_none : dictFind cf s = some none
  none_start : ∀ n, dictFind cf n = some none → n = s
  edges : ∀ n p, dictFind cf n = some (some p) → Edge adj p n
  disc_fr : ∀ n ∈ fr, dictMem cf n = true
  mem_split : ∀ n, dictMem cf n = true → n ∈ vis ∨ n ∈ fr
  depth : ∀ n, dictMem cf n = true →
    ∃ l, ChainL cf n l ∧ ShortestLen adj s n (l.length - 1)
  fr_depth : List.Forall₂
    (fun n k => ∃ l, ChainL cf n l ∧ l.length = k + 1) fr ds
  sorted : ds.Sorted (· ≤ ·)
  two_level : ∀ k ∈ ds, ∀ k0 ∈ ds.head?, k ≤ k0 + 1
  expanded : ∀ u ∈ vis, ∀ w, Edge adj u w → dictMem cf w = true

section BFSMain

variable {α : Type} [DecidableEq α]

/-- When the frontier is empty under the invariant, every reachable
node is already visited. -/
theorem bfs_empty_frontier (adj : List (α × List α)) (s g : α)
    (cf : List (α × Option α)) (vis : List α) (ds : List ℕ)
    (hInv : BFSInv adj s cf [] vis ds) (hreach : ∃ p, IsPathFrom adj s g p) :
    g ∈ vis := by
  obtain ⟨kg, hkg⟩ := shortestLen_exists hreach
  have hds : ds = [] := by
    cases hInv.fr_depth
    rfl
  refine complete_of_inv adj s cf [] vis ds hInv.start_none hInv.mem_split
    hInv.depth hInv.fr_depth hInv.sorted hInv.expanded kg g hkg ?_
  rw [hds]
  simp

/-- One full BFS iteration (pop `cur ≠ g`, expand) preserves the
invariant, with the new depth labels `dsr ++ replicate m (dcur + 1)`. -/
theorem bfs_step_inv (adj : List (α × List α)) (s cur : α)
    (cf : List (α × Option α)) (rest vis : List α) (dcur : ℕ) (dsr : List ℕ)
    (hInv : BFSInv adj s cf (cur :: rest) vis (dcur :: dsr)) :
    ∃ m, BFSInv adj s
      (expandNbrs cur (fun l n => l ++ [n]) (adjGet adj cur) cf rest).1
      (expandNbrs cur (fun l n => l ++ [n]) (adjGet adj cur) cf rest).2
      (vis ++ [cur]) (dsr ++ List.replicate m (dcur + 1)) := by
  obtain ⟨⟨lc, hlc, hlclen⟩, hfr_rest⟩ := List.forall₂_cons.mp hInv.fr_depth
  have hmemcur : dictMem cf cur = true :=
    hInv.disc_fr cur (List.mem_cons_self cur rest)
  have hslc : ShortestLen adj s cur dcur := by
    obtain ⟨lc', hlc', hslc'⟩ := hInv.depth cur hmemcur
    obtain rfl := hlc.det hlc'
    rw [hlclen] at hslc'
    simpa using hslc'
  have hSLnew : ∀ n, Edge adj cur n → dictMem cf n = false →
      ShortestLen adj s n (dcur + 1) := by
    intro n hedge hfalse
    have hpathc : IsPathFrom adj s cur lc.reverse :=
      hlc.toPath hInv.edges hInv.none_start
    have hatt : IsPathFrom adj s n (lc.reverse ++ [n]) :=
      isPathFrom_snoc hpathc hedge
    have hattlen : (lc.reverse ++ [n]).length = (dcur + 1) + 1 := by
      simp [hlclen]
    obtain ⟨k, hk⟩ := shortestLen_exists ⟨_, hatt⟩
    have hkub : k ≤ dcur + 1 := by
      have := hk.2 _ hatt
      omega
    have hklb : ¬ k < dcur + 1 := by
      intro hlt
      by_cases hk0 : k = 0
      · subst hk0
        obtain rfl := shortestLen_zero hk
        unfold dictMem at hfalse
        rw [hInv.start_none] at hfalse
        simp at hfalse
      · obtain ⟨⟨p, hp, hplen⟩, hmin⟩ := hk
        obtain ⟨q, u, hq, hqlen, hedge'⟩ :=
          isPathFrom_drop_last hp hplen (by omega)
        obtain ⟨j, hSLu⟩ := shortestLen_exists ⟨q, hq⟩
        have hj : j < dcur := by
          have := hSLu.2 q hq
          omega
        have hu : u ∈ vis :=
          complete_of_inv adj s cf (cur :: rest) vis (dcur :: dsr)
            hInv.start_none hInv.mem_split hInv.depth hInv.fr_depth
            hInv.sorted hInv.expanded j u hSLu
            (fun k0 hk0' => by
              obtain rfl : dcur = k0 := by simpa using hk0'
              exact hj)
        have := hInv.expanded u hu n hedge'
        rw [this] at hfalse
        simp at hfalse
    have hkeq : k = dcur + 1 := by omega
    rw [← hkeq]
    exact hk
  obtain ⟨m, hfr', hdepth'⟩ := expandNbrs_chains adj s cur dcur
    (adjGet adj cur) cf rest dsr (fun n hn => hn) ⟨lc, hlc, hlclen⟩
    hfr_rest hInv.depth hSLnew
  have hrest_disc : ∀ n ∈ rest, dictMem cf n = true :=
    fun n hn => hInv.disc_fr n (List.mem_cons_of_mem cur hn)
  have hband : ∀ k ∈ dsr ++ List.replicate m (dcur + 1),
      dcur ≤ k ∧ k ≤ dcur + 1 := by
    intro k hk
    rcases List.mem_append.mp hk with hk' | hk'
    · constructor
      · exact List.rel_of_sorted_cons hInv.sorted k hk'
      · exact hInv.two_level k (List.mem_cons_of_mem dcur hk') dcur rfl
    · obtain rfl := List.eq_of_mem_replicate hk'
      omega
  refine ⟨m, ?_, ?_, ?_, ?_, ?_, hdepth', hfr', ?_, ?_, ?_⟩
  · exact expandNbrs_find_preserve cur _ _ cf rest s none hInv.start_none
  · intro n hn
    rcases expandNbrs_find_new cur _ _ cf rest n none hn with h' | ⟨habs, _⟩
    · exact hInv.none_start n h'
    · exact absurd habs (by simp)
  · intro n p hn
    rcases expandNbrs_find_new cur _ _ cf rest n (some p) hn with h' | ⟨hcur', hmem'⟩
    · exact hInv.edges n p h'
    · obtain rfl : p = cur := by simpa using hcur'
      exact hmem'
  · exact expandNbrs_frontier_disc cur _ cf rest hrest_disc
  · intro n hn
    rcases expandNbrs_split cur _ cf rest n hn with h' | h'
    · rcases hInv.mem_split n h' with h'' | h''
      · exact Or.inl (List.mem_append_left _ h'')
      · rcases List.mem_cons.mp h'' with rfl | h3
        · exact Or.inl (List.mem_append_right _ (List.mem_singleton_self n))
        · exact Or.inr (expandNbrs_frontier_mono cur _ cf rest n h3)
    · exact Or.inr h'
  · rw [List.Sorted, List.pairwise_append]
    refine ⟨hInv.sorted.of_cons, ?_, ?_⟩
    · exact List.pairwise_replicate.mpr (Or.inr (le_refl _))
    · intro a ha b hb
      obtain rfl := List.eq_of_mem_replicate hb
      exact (hband a (List.mem_append_left _ ha)).2
  · intro k hk k0 hk0
    have h1 := (hband k hk).2
    have h2 := (hband k0 (List.mem_of_mem_head? hk0)).1
    omega
  · intro u hu w hedge
    rcases List.mem_append.mp hu with hu' | hu'
    · exact expandNbrs_mem_preserve cur _ _ cf rest w
        (hInv.expanded u hu' w hedge)
    · obtain rfl : u = cur := by simpa using hu'
      exact expandNbrs_discovers u _ _ cf rest w hedge

/-- The BFS loop, started in an invariant state with enough fuel and a
reachable goal, pops the goal and leaves a came-from map whose chain
for `g` realizes `g`'s shortest distance from `s`. -/
theorem searchLoop_bfs_main (adj : List (α × List α)) (s g : α) :
    ∀ (fuel : ℕ) (cf : List (α × Option α)) (fr vis : List α) (ds : List ℕ)
      (cnt : ℕ),
      BFSInv adj s cf fr vis ds →
      g ∉ vis →
      undisc adj cf + fr.length ≤ fuel →
      (∃ p, IsPathFrom adj s g p) →
      ∃ out, searchLoop adj g (fun l n => l ++ [n]) fuel cf fr cnt vis =
          some out ∧
        (∀ n p, dictFind out.1 n = some (some p) → Edge adj p n) ∧
        (∀ n, dictFind out.1 n = some none → n = s) ∧
        ∃ l, ChainL out.1 g l ∧ ShortestLen adj s g (l.length - 1) := by
  intro fuel
  induction fuel with
  | zero =>
    intro cf fr vis ds cnt hInv hgvis hfuel hreach
    exfalso
    match fr, hInv, hfuel with
    | [], hInv, _ =>
      exact hgvis (bfs_empty_frontier adj s g cf vis ds hInv hreach)
    | cur :: rest, _, hfuel => simp at hfuel
  | succ fuel ih =>
    intro cf fr vis ds cnt hInv hgvis hfuel hreach
    match fr, hInv, hfuel with
    | [], hInv, _ =>
      exact absurd (bfs_empty_frontier adj s g cf vis ds hInv hreach) hgvis
    | cur :: rest, hInv, hfuel =>
      simp only [searchLoop]
      by_cases hcur : cur = g
      · rw [if_pos hcur]
        subst hcur
        have hmem : dictMem cf cur = true :=
          hInv.disc_fr cur (List.mem_cons_self cur rest)
        obtain ⟨l, hl, hsl⟩ := hInv.depth cur hmem
        exact ⟨(cf, cnt + 1, vis ++ [cur]), rfl, hInv.edges, hInv.none_start,
          l, hl, hsl⟩
      · rw [if_neg hcur]
        match ds, hInv with
        | [], hInv => cases hInv.fr_depth
        | dcur :: dsr, hInv =>
          obtain ⟨m, hInv'⟩ := bfs_step_inv adj s cur cf rest vis dcur dsr hInv
          have hgvis' : g ∉ vis ++ [cur] := by
            intro hgmem
            rcases List.mem_append.mp hgmem with h' | h'
            · exact hgvis h'
            · have hgc : g = cur := by simpa using h'
              exact hcur hgc.symm
          have hmeas :
              undisc adj (expandNbrs cur (fun l n => l ++ [n])
                  (adjGet adj cur) cf rest).1 +
                (expandNbrs cur (fun l n => l ++ [n])
                  (adjGet adj cur) cf rest).2.length ≤ fuel := by
            have h1 := expandNbrs_measure adj cur (adjGet adj cur) cf rest
              (fun n hn => adjGet_mem_univFS hn)
            simp only [List.length_cons] at hfuel
            omega
          exact ih _ _ (vis ++ [cur]) (dsr ++ List.replicate m (dcur + 1))
            (cnt + 1) hInv' hgvis' hmeas hreach

/-- The initial BFS state satisfies the invariant. -/
theorem bfs_init_inv (adj : List (α × List α)) (s : α) :
    BFSInv adj s [(s, none)] [s] [] [0] := by
  have hfind : ∀ n, dictFind [(s, (none : Option α))] n =
      if s = n then some none else none := fun n => rfl
  refine ⟨?_, ?_, ?_, ?_, ?_, ?_, ?_, ?_, ?_, ?_⟩
  · rw [hfind, if_pos rfl]
  · intro n hn
    rw [hfind] at hn
    by_cases hsn : s = n
    · exact hsn.symm
    · rw [if_neg hsn] at hn; exact absurd hn (by simp)
  · intro n p hn
    rw [hfind] at hn
    by_cases hsn : s = n
    · rw [if_pos hsn] at hn; exact absurd hn (by simp)
    · rw [if_neg hsn] at hn; exact absurd hn (by simp)
  · intro n hn
    obtain rfl : n = s := by simpa using hn
    exact dictMem_cons_self [] n none
  · intro n hn
    unfold dictMem at hn
    rw [hfind] at hn
    by_cases hsn : s = n
    · exact Or.inr (by simp [hsn])
    · rw [if_neg hsn] at hn; simp at hn
  · intro n hn
    unfold dictMem at hn
    rw [hfind] at hn
    by_cases hsn : s = n
    · subst hsn
      refine ⟨[s], ChainL.zero s (by rw [hfind, if_pos rfl]), ?_⟩
      simpa using shortestLen_self adj s
    · rw [if_neg hsn] at hn; simp at hn
  · refine List.forall₂_cons.mpr ⟨⟨[s], ChainL.zero s ?_, rfl⟩, List.Forall₂.nil⟩
    rw [hfind, if_pos rfl]
  · simp
  · intro k hk k0 hk0
    obtain rfl : k = 0 := by simpa using hk
    omega
  · intro u hu; simp at hu

/-- C2 assembled over the full `bfs` pipeline. -/
theorem bfs_finds_shortest (adj : List (α × List α)) (s g : α)
    (hreach : ∃ p, IsPathFrom adj s g p) :
    ∃ r, bfs adj s g = some r ∧ r.path ≠ [] ∧
      IsPathFrom adj s g r.path ∧ r.path.length = r.distance + 1 ∧
      ∀ p, IsPathFrom adj s g p → r.distance + 1 ≤ p.length := by
  have hmeas : undisc adj [(s, none)] + [s].length ≤ searchFuel adj := by
    unfold searchFuel
    have := Finset.card_filter_le (univFS adj)
      (fun n => ¬ dictMem [(s, (none : Option α))] n = true)
    unfold undisc
    simp only [List.length_singleton]
    omega
  obtain ⟨out, hloop, hedges, hnone, l, hl, hsl⟩ :=
    searchLoop_bfs_main adj s g (searchFuel adj) [(s, none)] [s] [] [0] 0
      (bfs_init_inv adj s) (by simp) hmeas hreach
  unfold bfs
  rw [hloop, Option.some_bind]
  have hwalk := hl.walk (out.1.length + 1) (hl.length_le.trans (by omega)) []
  simp only [List.nil_append] at hwalk
  unfold finish reconstruct_path
  rw [hwalk]
  dsimp only
  obtain ⟨mm, hmlast, hmfind⟩ := hl.getLast_none
  obtain rfl := hnone mm hmfind
  have hlne : l ≠ [] := hl.ne_nil
  have hhead : l.reverse.head? = some mm := by
    rw [List.head?_reverse]
    exact hmlast
  rw [if_neg ?_]
  · refine ⟨_, rfl, ?_, ?_, ?_, ?_⟩
    · simpa using hlne
    · exact hl.toPath hedges hnone
    · have : 1 ≤ l.length := List.length_pos_of_ne_nil hlne
      simp only [List.length_reverse]
      omega
    · intro p hp
      have hmin := hsl.2 p hp
      have : 1 ≤ l.length := List.length_pos_of_ne_nil hlne
      simp only [List.length_reverse]
      omega
  · push_neg
    refine ⟨by simpa using hlne, ?_⟩
    rw [hhead]

end BFSMain

/-! ## Heuristic degradation (C7) -/

section Degradation

variable {α : Type} [LinearOrder α] {β : Type} [AddMonoid β] [One β]
  [LinearOrder β] {P : Type}

theorem heurTerm_present (pos : List (α × P)) (euclid : P → P → β) (n g : α)
    (pn pg : P) (hn : dictFind pos n = some pn) (hg : dictFind pos g = some pg) :
    heurTerm pos euclid n g = euclid pn pg := by
  unfold heurTerm
  rw [hn, hg]

theorem heurTerm_absent (pos : List (α × P)) (euclid : P → P → β) (n g : α)
    (h : dictFind pos n = none ∨ dictFind pos g = none) :
    heurTerm pos euclid n g = 0 := by
  unfold heurTerm
  rcases h with h | h
  · rw [h]
  · rw [h]
    cases dictFind pos n <;> rfl

theorem heurTerm_nil (euclid : P → P → β) (n g : α) :
    heurTerm ([] : List (α × P)) euclid n g = 0 := rfl

/-- With no positions at all, the A* relaxation step is exactly the
uniform-cost one: every pushed priority is `tg + 0 = tg`. -/
theorem astarExpand_nil_pos (euclid : P → P → β) (goal cur : α) :
    ∀ (ns : List α) (cf : List (α × Option α)) (gs : List (α × β))
      (hp : List (β × α)),
      astarExpand ([] : List (α × P)) euclid goal cur ns cf gs hp =
        ucsExpand β goal cur ns cf gs hp := by
  intro ns
  induction ns with
  | nil => intro cf gs hp; rfl
  | cons n ns ih =>
    intro cf gs hp
    simp only [astarExpand, ucsExpand]
    cases hgc : dictFind gs cur with
    | none => rfl
    | some gc =>
      dsimp only
      by_cases himp : (match dictFind gs n with
          | none => true
          | some gn => decide (gc + 1 < gn)) = true
      · rw [if_pos himp, if_pos himp, heurTerm_nil, add_zero]
        exact ih _ _ _
      · rw [if_neg himp, if_neg himp]
        exact ih _ _ _

/-- With no positions at all, the whole A* loop coincides with
uniform-cost search, step by step. -/
theorem astarLoop_nil_pos (adj : List (α × List α)) (euclid : P → P → β)
    (start goal : α) :
    ∀ (fuel : ℕ) (hp : List (β × α)) (cf : List (α × Option α))
      (gs : List (α × β)) (cnt : ℕ) (ord : List α),
      astarLoop adj ([] : List (α × P)) euclid start goal fuel hp cf gs cnt ord =
        ucsLoop β adj start goal fuel hp cf gs cnt ord := by
  intro fuel
  induction fuel with
  | zero => intro hp cf gs cnt ord; rfl
  | succ fuel ih =>
    intro hp cf gs cnt ord
    simp only [astarLoop, ucsLoop]
    cases hpop : popMin hp with
    | none => rfl
    | some pr =>
      obtain ⟨⟨f, cur⟩, rest⟩ := pr
      dsimp only
      by_cases hg : cur = goal
      · rw [if_pos hg, if_pos hg]
      · rw [if_neg hg, if_neg hg, astarExpand_nil_pos]
        cases ucsExpand β goal cur (adjGet adj cur) cf gs rest with
        | none => rfl
        | some out =>
          obtain ⟨cf', gs', hp'⟩ := out
          exact ih _ _ _ _ _

end Degradation

/-! ## Claim theorems -/

/-- C1: for every adjacency mapping with `s` and `g` among its keys and
each of `bfs`, `dfs` and `astar`, a returned non-empty path starts at
`s`, ends at `g`, and every consecutive pair of it is an edge of the
adjacency mapping. -/
theorem c1_path_validity {α : Type} [LinearOrder α] {β P : Type}
    [Zero β] [One β] [Add β] [LinearOrder β]
    (adj : List (α × List α)) (pos : List (α × P)) (euclid : P → P → β)
    (s g : α) (hs : dictMem adj s = true) (hg : dictMem adj g = true)
    (r : SearchResult α)
    (h : bfs adj s g = some r ∨ dfs adj s g = some r ∨
      astar adj pos euclid s g = some r)
    (hne : r.path ≠ []) :
    r.path.head? = some s ∧ r.path.getLast? = some g ∧
      List.Chain' (Edge adj) r.path := by
  rcases h with h | h | h
  · unfold bfs at h
    rcases Option.bind_eq_some.mp h with ⟨out, hloop, hfin⟩
    have hok : CFok adj out.1 :=
      searchLoop_CFok adj g _ _ _ _ _ _ _ hloop (CFok_init adj s)
    obtain ⟨h1, h2, h3⟩ :=
      reconstruct_path_ok out.1 s g r.path (finish_path s g out r hfin) hne
    exact ⟨h1, h2, h3.imp fun a b hab => hok b a hab⟩
  · unfold dfs at h
    rcases Option.bind_eq_some.mp h with ⟨out, hloop, hfin⟩
    have hok : CFok adj out.1 :=
      searchLoop_CFok adj g _ _ _ _ _ _ _ hloop (CFok_init adj s)
    obtain ⟨h1, h2, h3⟩ :=
      reconstruct_path_ok out.1 s g r.path (finish_path s g out r hfin) hne
    exact ⟨h1, h2, h3.imp fun a b hab => hok b a hab⟩
  · exact astarLoop_path adj pos euclid s g _ _ _ _ _ _ _ h
      (CFok_init adj s) hne

/-- Witness for C1 at a concrete input (`bfs` on the edge `0 → 1`). -/
theorem c1_witness :
    ([0, 1] : List ℕ).head? = some 0 ∧ ([0, 1] : List ℕ).getLast? = some 1 ∧
      List.Chain' (Edge [((0 : ℕ), [1]), (1, [])]) [0, 1] :=
  c1_path_validity [((0 : ℕ), [1]), (1, [])] ([] : List (ℕ × (ℤ × ℤ)))
    lineDist 0 1 (by decide) (by decide) ⟨[0, 1], 1, 2, [0, 1]⟩
    (Or.inl (by decide)) (by decide)

/-- C6: for each of `bfs`, `dfs` and `astar` and every input, any
returned `SearchResult` has `visited_count` equal to the length of
`visited_order`. -/
theorem c6_visited_count_matches_order {α : Type} [LinearOrder α] {β P : Type}
    [Zero β] [One β] [Add β] [LinearOrder β]
    (adj : List (α × List α)) (pos : List (α × P)) (euclid : P → P → β)
    (s g : α) (r : SearchResult α)
    (h : bfs adj s g = some r ∨ dfs adj s g = some r ∨
      astar adj pos euclid s g = some r) :
    r.visited_count = r.visited_order.length := by
  rcases h with h | h | h
  · unfold bfs at h
    rcases Option.bind_eq_some.mp h with ⟨out, hloop, hfin⟩
    obtain ⟨h1, h2⟩ := finish_counters s g out r hfin
    rw [h1, h2]
    exact searchLoop_count _ _ _ _ _ _ _ _ _ hloop rfl
  · unfold dfs at h
    rcases Option.bind_eq_some.mp h with ⟨out, hloop, hfin⟩
    obtain ⟨h1, h2⟩ := finish_counters s g out r hfin
    rw [h1, h2]
    exact searchLoop_count _ _ _ _ _ _ _ _ _ hloop rfl
  · exact astarLoop_count _ _ _ _ _ _ _ _ _ _ _ _ h rfl

/-- Witness for C6 at a concrete input. -/
theorem c6_witness :
    (⟨[0], 0, 1, [0]⟩ : SearchResult ℕ).visited_count =
      (⟨[0], 0, 1, [0]⟩ : SearchResult ℕ).visited_order.length :=
  c6_visited_count_matches_order [((0 : ℕ), [])] ([] : List (ℕ × (ℤ × ℤ)))
    lineDist 0 0 _ (Or.inl (by decide))

/-- C5: searching from a node to itself returns `path = [n]`,
`distance = 0`, `visited_count = 1` and `visited_order = [n]` (the
node's neighbors are never expanded) for all three algorithms. -/
theorem c5_trivial_search {α : Type} [LinearOrder α] {β P : Type}
    [Zero β] [One β] [Add β] [LinearOrder β]
    (adj : List (α × List α)) (pos : List (α × P)) (euclid : P → P → β)
    (n : α) (hn : dictMem adj n = true) :
    bfs adj n n = some ⟨[n], 0, 1, [n]⟩ ∧
      dfs adj n n = some ⟨[n], 0, 1, [n]⟩ ∧
      astar adj pos euclid n n = some ⟨[n], 0, 1, [n]⟩ := by
  refine ⟨?_, ?_, ?_⟩
  · simp [bfs, searchFuel, searchLoop, finish, reconstruct_path, walkLoop,
      dictFind]
  · simp [dfs, searchFuel, searchLoop, finish, reconstruct_path, walkLoop,
      dictFind]
  · simp [astar, astarFuel, astarLoop, popMin, minEntry, eraseFirst,
      reconstruct_path, walkLoop, dictFind]

/-- Witness for C5 at a concrete input. -/
theorem c5_witness :
    bfs [((0 : ℕ), [1]), (1, [])] 0 0 = some ⟨[0], 0, 1, [0]⟩ ∧
      dfs [((0 : ℕ), [1]), (1, [])] 0 0 = some ⟨[0], 0, 1, [0]⟩ ∧
      astar [((0 : ℕ), [1]), (1, [])] ([] : List (ℕ × (ℤ × ℤ))) lineDist 0 0 =
        some ⟨[0], 0, 1, [0]⟩ :=
  c5_trivial_search [((0 : ℕ), [1]), (1, [])] ([] : List (ℕ × (ℤ × ℤ)))
    lineDist 0 (by decide)

/-- C7: the heuristic term `astar` pushes for a neighbor is the
Euclidean distance from the neighbor's position to the goal's position
when both are present in the positions mapping, and `0` when either is
missing; with an empty positions mapping `astar` coincides with
uniform-cost search (priority = accumulated cost) step by step. -/
theorem c7_heuristic_degradation {α : Type} [LinearOrder α]
    (adj : List (α × List α)) (s g n : α)
    (pos : List (α × (ℝ × ℝ))) (pn pg : ℝ × ℝ) :
    (dictFind pos n = some pn → dictFind pos g = some pg →
      heurTerm pos euclidean n g = euclidean pn pg) ∧
    ((dictFind pos n = none ∨ dictFind pos g = none) →
      heurTerm pos euclidean n g = (0 : ℝ)) ∧
    astar adj ([] : List (α × (ℝ × ℝ))) euclidean s g = ucs ℝ adj s g := by
  refine ⟨fun hn hg => heurTerm_present pos euclidean n g pn pg hn hg,
    fun h => heurTerm_absent pos euclidean n g h, ?_⟩
  unfold astar ucs
  exact astarLoop_nil_pos adj euclidean s g _ _ _ _ _ _

/-- Witness for C7 at concrete inputs (both present; one missing; and
the degraded run on the edge `0 → 1`). -/
theorem c7_witness :
    heurTerm [((0 : ℕ), ((3 : ℝ), 4)), (1, (0, 0))] euclidean 0 1 =
        euclidean (3, 4) (0, 0) ∧
      heurTerm ([] : List (ℕ × (ℝ × ℝ))) euclidean 0 1 = (0 : ℝ) ∧
      astar [((0 : ℕ), [1]), (1, [])] ([] : List (ℕ × (ℝ × ℝ))) euclidean 0 1 =
        ucs ℝ [((0 : ℕ), [1]), (1, [])] 0 1 :=
  ⟨(c7_heuristic_degradation [((0 : ℕ), [1]), (1, [])] 0 1 0
      [((0 : ℕ), ((3 : ℝ), 4)), (1, (0, 0))] (3, 4) (0, 0)).1 rfl rfl,
    (c7_heuristic_degradation [((0 : ℕ), [1]), (1, [])] 0 1 0
      ([] : List (ℕ × (ℝ × ℝ))) (0, 0) (0, 0)).2.1 (Or.inl rfl),
    (c7_heuristic_degradation [((0 : ℕ), [1]), (1, [])] 0 1 0
      ([] : List (ℕ × (ℝ × ℝ))) (0, 0) (0, 0)).2.2⟩

/-- C9: in `bfs` and `dfs` a node joins the frontier at most once over
the whole search (first discovery marks it in the came-from map, and
only unmarked nodes are pushed), so the returned `visited_order` never
repeats a node. -/
theorem c9_single_discovery {α : Type} [DecidableEq α]
    (adj : List (α × List α)) (s g : α)
    (hs : dictMem adj s = true) (hg : dictMem adj g = true)
    (r : SearchResult α) (h : bfs adj s g = some r ∨ dfs adj s g = some r) :
    r.visited_order.Nodup := by
  have hinit : ∀ n ∈ ([] : List α) ++ [s],
      dictMem [(s, (none : Option α))] n = true := by
    intro n hn
    obtain rfl : n = s := by simpa using hn
    exact dictMem_cons_self [] n none
  rcases h with h | h
  · unfold bfs at h
    rcases Option.bind_eq_some.mp h with ⟨out, hloop, hfin⟩
    rw [(finish_counters s g out r hfin).2]
    exact searchLoop_nodup adj g _ (fun fr n => List.perm_append_singleton n fr)
      _ _ _ _ _ _ hloop (by simp) hinit
  · unfold dfs at h
    rcases Option.bind_eq_some.mp h with ⟨out, hloop, hfin⟩
    rw [(finish_counters s g out r hfin).2]
    exact searchLoop_nodup adj g _ (fun fr n => List.Perm.refl _)
      _ _ _ _ _ _ hloop (by simp) hinit

/-- Witness for C9 at a concrete input. -/
theorem c9_witness : ([0, 1] : List ℕ).Nodup :=
  c9_single_discovery [((0 : ℕ), [1]), (1, [])] 0 1 (by decide) (by decide)
    ⟨[0, 1], 1, 2, [0, 1]⟩ (Or.inl (by decide))

/-- C2: with `s` and `g` keys of the adjacency mapping and `g`
reachable from `s`, `bfs` returns a non-empty path and its `distance`
equals the minimum edge count over all `s → g` paths (attained and a
lower bound). -/
theorem c2_bfs_optimal {α : Type} [DecidableEq α] (adj : List (α × List α))
    (s g : α) (hs : dictMem adj s = true) (hg : dictMem adj g = true)
    (hreach : ∃ p, IsPathFrom adj s g p) :
    ∃ r, bfs adj s g = some r ∧ r.path ≠ [] ∧
      (∃ p, IsPathFrom adj s g p ∧ p.length = r.distance + 1) ∧
      ∀ p, IsPathFrom adj s g p → r.distance + 1 ≤ p.length := by
  obtain ⟨r, h1, h2, h3, h4, h5⟩ := bfs_finds_shortest adj s g hreach
  exact ⟨r, h1, h2, ⟨r.path, h3, h4⟩, h5⟩

/-- Witness for C2 at a concrete input (the edge `0 → 1`). -/
theorem c2_witness :
    ∃ r : SearchResult ℕ,
      bfs [((0 : ℕ), [1]), (1, [])] 0 1 = some r ∧ r.path ≠ [] ∧
        (∃ p, IsPathFrom [((0 : ℕ), [1]), (1, [])] 0 1 p ∧
          p.length = r.distance + 1) ∧
        ∀ p, IsPathFrom [((0 : ℕ), [1]), (1, [])] 0 1 p →
          r.distance + 1 ≤ p.length :=
  c2_bfs_optimal [((0 : ℕ), [1]), (1, [])] 0 1 (by decide) (by decide)
    ⟨[0, 1], rfl, rfl,
      List.chain'_cons.mpr ⟨by decide, List.chain'_singleton 1⟩⟩

/-- C3 (code_bug evidence): with both `0` and `1` keys of the adjacency
mapping but `1` unreachable from `0`, `bfs` and `dfs` do not return a
`SearchResult` at all — `reconstruct_path` evaluates `came_from[goal]`
with `goal` absent, raising `KeyError` (modelled as `none`) — where the
spec promises a normal empty result.  (`astar` alone returns the
promised empty result, as it never reconstructs an unreached goal.) -/
theorem c3_unreachable_goal_raises :
    bfs adjIso 0 1 = none ∧ dfs adjIso 0 1 = none ∧
      astar adjIso ([] : List (ℕ × (ℤ × ℤ))) lineDist 0 1 =
        some ⟨[], 0, 1, [0]⟩ := by
  refine ⟨by decide, by decide, by decide⟩

/-- C4 (code_bug evidence): `reconstruct_path` is not total — when the
goal has no came-from entry the walk raises `KeyError` (first two
conjuncts: empty map, and the map produced by searching `adjIso`), and a
cyclic came-from map makes the `while` loop diverge (third conjunct),
where the claim promises an empty list in every no-chain case. -/
theorem c4_reconstruct_not_total :
    reconstruct_path ([] : List (ℕ × Option ℕ)) 0 1 = .keyErr ∧
      reconstruct_path [((0 : ℕ), none)] 0 1 = .keyErr ∧
      reconstruct_path [((1 : ℕ), some 2), (2, some 1)] 0 1 = .cyc := by
  refine ⟨by decide, by decide, by decide⟩

/-- C10: there is a valid input on which `astar`'s `visited_order`
records the same node twice: on `adjRevisit`/`posRevisit` node `4` is
popped with `g = 3` (via `0,1,2`), later improved to `g = 2` (via `3`),
re-pushed and popped again, so `visited_count = 7` exceeds the `6`
distinct nodes. -/
theorem c10_astar_revisits_node :
    ∃ r : SearchResult ℕ,
      astar adjRevisit posRevisit lineDist 0 5 = some r ∧
        ¬ r.visited_order.Nodup ∧ r.visited_count = 7 :=
  ⟨⟨[0, 3, 4, 5], 3, 7, [0, 1, 2, 4, 3, 4, 5]⟩, by decide, by decide, by decide⟩

end PathFinder
